import Mathlib

/-!
# MOO search (`Weird_finding.cpp`): shallow embedding

The C++ program explores a state graph depth first with a "keep the deepest
arrival" pruning rule.  The embedding below follows the source function by
function.

Modelling conventions.

* `int` is modelled by `Int`; the properties below concern runs in which no
  counter comes near `2^31`, so no wrap-around is modelled.  `/` and `%` are
  the truncating `Int.tdiv` and `Int.tmod`, as in C++.
* `vector<int>` is `List Int`.  A `State` is built by the constructor with
  `magnitudes.size() == n` and no operation resizes it, so the index loops
  `for (i = 0; i < n; i++)` of the source are traversals of the list.
* The only data dependent index is `magnitudes[current_pos]` in
  `try_operation`; an index outside `[0, size)` is undefined behaviour in C++
  and is `none` here.
* `vector<State> stack` is a `List State` whose head is `stack.back()`.
* `map<State, int>` is an association list searched with the equivalence the
  comparator induces (`!(a < b) && !(b < a)`), which is all `find` and
  `operator[]` observe.
* Console output is left out.
-/

namespace MOO

/-- The `State` struct. -/
structure State where
  magnitudes : List Int
  current_pos : Int
  moves_since_plus2 : Int
  total_moves : Int
  injection_cycle : Int
  n : Int
  deriving DecidableEq

/-- The constructor `State(int n_val)`: `n` zero magnitudes, all counters zero
(`main` rejects `n < 1`). -/
def State.initial (n_val : Int) : State :=
  { magnitudes := List.replicate n_val.toNat 0
    current_pos := 0
    moves_since_plus2 := 0
    total_moves := 0
    injection_cycle := 0
    n := n_val }

/-- The `operator<` of `vector<int>` (`std::lexicographical_compare`). -/
def vecLt : List Int → List Int → Bool
  | [], [] => false
  | [], _ :: _ => true
  | _ :: _, [] => false
  | a :: as, b :: bs =>
    if a < b then true
    else if b < a then false
    else vecLt as bs

/-- The member `State::operator<`. -/
def State.lt (a other : State) : Bool :=
  if a.magnitudes ≠ other.magnitudes then vecLt a.magnitudes other.magnitudes
  else if a.current_pos ≠ other.current_pos then decide (a.current_pos < other.current_pos)
  else if a.moves_since_plus2 ≠ other.moves_since_plus2 then
    decide (a.moves_since_plus2 < other.moves_since_plus2)
  else decide (a.injection_cycle < other.injection_cycle)

/-- The loop of `is_goal`: the first magnitude below `n` returns false. -/
def goalLoop (n : Int) : List Int → Bool
  | [] => true
  | mag :: rest => if mag < n then false else goalLoop n rest

/-- The member `State::is_goal`. -/
def State.is_goal (s : State) : Bool :=
  goalLoop s.n s.magnitudes

/-- The loop of `valid_ordering` from index `i` on, `prev` being
`magnitudes[i - 1]`. -/
def validLoop (prev : Int) : List Int → Bool
  | [] => true
  | mag :: rest =>
    if 0 < mag ∧ prev < mag - 1 then false else validLoop mag rest

/-- The member `State::valid_ordering`: the loop starts at index 1. -/
def State.valid_ordering (s : State) : Bool :=
  match s.magnitudes with
  | [] => true
  | first :: rest => validLoop first rest

/-- The member `State::apply_flip`. -/
def State.apply_flip (s : State) : State :=
  { s with magnitudes := s.magnitudes.map (fun mag => s.n - mag) }

/-- First loop of `apply_trigger`: the first slot equal to `max_val` is
decremented, floored at 0, and the loop breaks. -/
def decFirst (max_val : Int) : List Int → List Int
  | [] => []
  | mag :: rest =>
    if mag = max_val then max 0 (mag - 1) :: rest else mag :: decFirst max_val rest

/-- Second loop of `apply_trigger`: the first slot equal to `min_val` is
incremented, capped at `n`, and the loop breaks. -/
def incFirst (n min_val : Int) : List Int → List Int
  | [] => []
  | mag :: rest =>
    if mag = min_val then min n (mag + 1) :: rest else mag :: incFirst n min_val rest

/-- The method `MOOSimulator::apply_trigger`. -/
def apply_trigger (n : Int) (state : State) : State :=
  let max_val := state.magnitudes.foldl (fun acc mag => max acc mag) (-1)
  let min_val := state.magnitudes.foldl (fun acc mag => min acc mag) (n + 1)
  { state with magnitudes := incFirst n min_val (decFirst max_val state.magnitudes) }

/-- The method `MOOSimulator::apply_periodic_effects`. -/
def apply_periodic_effects (n : Int) (state : State) : State :=
  let flip_period := 4 + state.total_moves.tdiv 50000
  let flip_period := if flip_period > 100 then 100 else flip_period
  let state := if state.total_moves.tmod flip_period = 1 then state.apply_flip else state
  let cycle_length : Int := 131
  if 0 < state.total_moves ∧ state.total_moves.tmod cycle_length = 0 then
    { state with
      magnitudes := state.magnitudes.map (fun mag => min n (mag + 1))
      injection_cycle := state.injection_cycle + 1 }
  else state

/-- The positions `generate_movements` moves to. -/
def next_positions (n : Int) (state : State) : List Int :=
  if state.current_pos = 0 then [1]
  else if state.current_pos = n - 1 then [n - 2]
  else [state.current_pos - 1, state.current_pos + 1]

/-- Body of the loop of `generate_movements` for one `next_pos`. -/
def moved_state (n : Int) (state : State) (next_pos : Int) : State :=
  apply_periodic_effects n
    { state with current_pos := next_pos, total_moves := state.total_moves + 1 }

/-- The method `MOOSimulator::generate_movements`: the states it appends to
`next_states`. -/
def generate_movements (n : Int) (state : State) : List State :=
  ((next_positions n state).map (moved_state n state)).filter State.valid_ordering

/-- The write `new_state.magnitudes[new_state.current_pos] = min(n, ... + k)` of
`try_operation`; `none` when the index is outside the vector. -/
def bump (n : Int) (state : State) (k : Int) : Option State :=
  if 0 ≤ state.current_pos ∧ state.current_pos < state.magnitudes.length then
    some { state with
      magnitudes := state.magnitudes.set state.current_pos.toNat
        (min n (state.magnitudes.getD state.current_pos.toNat 0 + k)) }
  else none

/-- The method `MOOSimulator::try_operation`: the states it appends to
`next_states`, or `none` on an out-of-range slot access. -/
def try_operation (n : Int) (state : State) (operation : Int) : Option (List State) :=
  if operation = 1 then
    match bump n state 1 with
    | none => none
    | some new_state =>
      some (generate_movements n
        { new_state with moves_since_plus2 := new_state.moves_since_plus2 + 1 })
  else
    match bump n state 2 with
    | none => none
    | some new_state =>
      some (generate_movements n { apply_trigger n new_state with moves_since_plus2 := 0 })

/-- The method `MOOSimulator::generate_next_states`. -/
def generate_next_states (n : Int) (state : State) : Option (List State) :=
  match try_operation n state 1 with
  | none => none
  | some small =>
    if 2 ≤ state.moves_since_plus2 then
      match try_operation n state 2 with
      | none => none
      | some large => some (small ++ large)
    else some small

/-- Two keys are equivalent for `map<State, int>` when neither is less than the
other. -/
def keyEquiv (a b : State) : Bool :=
  !a.lt b && !b.lt a

/-- The best-known-depth map `map<State, int> best`. -/
abbrev BestMap := List (State × Int)

/-- The call `best.find(s)`: the recorded depth, `none` for `best.end()`. -/
def BestMap.find : BestMap → State → Option Int
  | [], _ => none
  | (k, d) :: rest, s => if keyEquiv k s then some d else BestMap.find rest s

/-- The assignment `best[s] = d`. -/
def BestMap.assign : BestMap → State → Int → BestMap
  | [], s, d => [(s, d)]
  | (k, e) :: rest, s, d =>
    if keyEquiv k s then (k, d) :: rest else (k, e) :: BestMap.assign rest s d

/-- The locals of `compute_L` that the loop reads and writes. -/
structure Search where
  stack : List State
  best : BestMap
  max_moves : Int
  states_explored : Int
  deriving DecidableEq

/-- Body of the `for (State& next : next_states)` loop of `compute_L`, on the
pair (map, frontier). -/
def offer (acc : BestMap × List State) (next : State) : BestMap × List State :=
  match acc.1.find next with
  | none => (acc.1.assign next next.total_moves, next :: acc.2)
  | some d =>
    if d < next.total_moves then (acc.1.assign next next.total_moves, next :: acc.2)
    else acc

/-- One iteration of the `while` loop of `compute_L` on a non-empty frontier;
`none` on an out-of-range slot access. -/
def loop_body (n : Int) (c : Search) : Option Search :=
  match c.stack with
  | [] => some c
  | current :: rest =>
    if current.is_goal then
      some { stack := rest
             best := c.best
             max_moves := max c.max_moves current.total_moves
             states_explored := c.states_explored + 1 }
    else
      match generate_next_states n current with
      | none => none
      | some next_states =>
        let acc := next_states.foldl offer (c.best, rest)
        some { stack := acc.2
               best := acc.1
               max_moves := c.max_moves
               states_explored := c.states_explored + 1 }

/-- How a bounded run of `compute_L` ends. -/
inductive Outcome where
  | returned (max_moves : Int)
  | out_of_range
  | out_of_fuel
  deriving DecidableEq

/-- The `while (!stack.empty())` loop with at most `fuel` iterations. -/
def search_loop (n : Int) : Nat → Search → Outcome
  | 0, c => if c.stack = [] then Outcome.returned c.max_moves else Outcome.out_of_fuel
  | fuel + 1, c =>
    if c.stack = [] then Outcome.returned c.max_moves
    else
      match loop_body n c with
      | none => Outcome.out_of_range
      | some c' => search_loop n fuel c'

/-- The locals of `compute_L` when the loop is entered. -/
def Search.start (n : Int) : Search :=
  { stack := [State.initial n]
    best := [(State.initial n, 0)]
    max_moves := 0
    states_explored := 0 }

/-- The method `MOOSimulator::compute_L`, with at most `fuel` loop iterations. -/
def compute_L (n : Int) (fuel : Nat) : Outcome :=
  search_loop n fuel (Search.start n)

/-- The structural key of a state: the four fields `operator<` reads. -/
def State.key (s : State) : List Int × Int × Int × Int :=
  (s.magnitudes, s.current_pos, s.moves_since_plus2, s.injection_cycle)

/-- The order the specification names: lexicographic over `magnitudes`, then
`current_pos`, then `moves_since_plus2`, then `injection_cycle`. -/
def specLexLt (a b : State) : Prop :=
  List.Lex (· < ·) a.magnitudes b.magnitudes ∨
  (a.magnitudes = b.magnitudes ∧
    (a.current_pos < b.current_pos ∨
    (a.current_pos = b.current_pos ∧
      (a.moves_since_plus2 < b.moves_since_plus2 ∨
      (a.moves_since_plus2 = b.moves_since_plus2 ∧
        a.injection_cycle < b.injection_cycle)))))

/-- The first `k` iterations of the `while` loop from `c` (fewer when the
frontier empties earlier); `none` on an out-of-range slot access. -/
def iterate_loop (n : Int) : Nat → Search → Option Search
  | 0, c => some c
  | k + 1, c =>
    if c.stack = [] then some c
    else
      match loop_body n c with
      | none => none
      | some c' => iterate_loop n k c'

/-- The loop states of a run of `compute_L`: the state at loop entry and every
state a loop iteration produces from a reachable one. -/
inductive Reachable (n : Int) : Search → Prop where
  | start : Reachable n (Search.start n)
  | step {c c' : Search} : Reachable n c → c.stack ≠ [] → loop_body n c = some c' →
      Reachable n c'

/-- The `total_moves` of the goal states popped during the first `fuel`
iterations of the loop from `c`, in the order of the pops. -/
def goal_depths (n : Int) : Nat → Search → List Int
  | 0, _ => []
  | fuel + 1, c =>
    match c.stack with
    | [] => []
    | current :: _ =>
      match loop_body n c with
      | none => []
      | some c' =>
        if current.is_goal then current.total_moves :: goal_depths n fuel c'
        else goal_depths n fuel c'

/-- Every depth recorded in `m` is still recorded in `m'`, with a depth at
least as large. -/
def BestMap.le (m m' : BestMap) : Prop :=
  ∀ (s : State) (d : Int), m.find s = some d → ∃ d', m'.find s = some d' ∧ d ≤ d'

/-- Every state of the frontier has a recorded depth at least its own
`total_moves`. -/
def frontier_covered (best : BestMap) (stack : List State) : Prop :=
  ∀ s ∈ stack, ∃ d, best.find s = some d ∧ s.total_moves ≤ d

/-- A state of the simulator for `n`: it carries the same `n`, has `n`
magnitudes, and every magnitude lies in `[0, n]`. -/
def State.bounded (n : Int) (s : State) : Prop :=
  s.n = n ∧ (s.magnitudes.length : Int) = n ∧ ∀ mag ∈ s.magnitudes, 0 ≤ mag ∧ mag ≤ n

/-- The state `try_operation` hands to `generate_movements`: after the small
move, or after the large move with its trigger. -/
def post_move (n : Int) (s s' : State) : Prop :=
  (∃ b, bump n s 1 = some b ∧ s' = { b with moves_since_plus2 := b.moves_since_plus2 + 1 }) ∨
  (2 ≤ s.moves_since_plus2 ∧ ∃ b, bump n s 2 = some b ∧
    s' = { apply_trigger n b with moves_since_plus2 := 0 })

/-- First effect of `apply_periodic_effects`: the flip, when `total_moves`
leaves remainder 1 modulo the current flip period. -/
def periodic_flip (state : State) : State :=
  let flip_period := 4 + state.total_moves.tdiv 50000
  let flip_period := if flip_period > 100 then 100 else flip_period
  if state.total_moves.tmod flip_period = 1 then state.apply_flip else state

/-- Second effect of `apply_periodic_effects`: the injection every
`cycle_length = 131` moves. -/
def periodic_injection (n : Int) (state : State) : State :=
  if 0 < state.total_moves ∧ state.total_moves.tmod 131 = 0 then
    { state with
      magnitudes := state.magnitudes.map (fun mag => min n (mag + 1))
      injection_cycle := state.injection_cycle + 1 }
  else state

/-- Index of the first slot of `mags` that holds `v`. -/
def firstSlot (v : Int) : List Int → Option Nat
  | [] => none
  | mag :: rest => if mag = v then some 0 else (firstSlot v rest).map (· + 1)

/-- Decrement, floored at 0, of the first slot that holds `max_val`. -/
def decrement_first (max_val : Int) (mags : List Int) : List Int :=
  match firstSlot max_val mags with
  | some i => mags.set i (max 0 (mags.getD i 0 - 1))
  | none => mags

/-- The trigger as two sequential edits, in the words of the specification's
design note: first the first slot equal to the pre-trigger maximum is
decremented (floored at 0); then, on the array so mutated, the first slot whose
value equals the pre-trigger minimum is incremented (capped at `n`), if there is
one. -/
def trigger_two_edits (n : Int) (mags : List Int) : List Int :=
  match mags.max?, mags.min? with
  | some max_val, some min_val =>
    match firstSlot min_val (decrement_first max_val mags) with
    | some j =>
      (decrement_first max_val mags).set j
        (min n ((decrement_first max_val mags).getD j 0 + 1))
    | none => decrement_first max_val mags
  | _, _ => mags

/-- The trigger with the slot to increment fixed on the pre-trigger array: the
first slot equal to the pre-trigger maximum is decremented, and the first slot
that held the minimum before the decrement is incremented. -/
def trigger_pre_chosen (n : Int) (mags : List Int) : List Int :=
  match mags.max?, mags.min? with
  | some max_val, some min_val =>
    match firstSlot min_val mags with
    | some j =>
      (decrement_first max_val mags).set j
        (min n ((decrement_first max_val mags).getD j 0 + 1))
    | none => decrement_first max_val mags
  | _, _ => mags

/-! ## Checkpoints of the run for `n = 2`

Loop states written out in full, so that the run can be evaluated in stretches
of about fifty iterations. -/

/-- The loop state of the run for `n = 2` after 50 iterations. -/
def run_two_50 : Search :=
  { stack := [
      State.mk [0, 1] 1 1 33 0 2, State.mk [1, 2] 0 4 32 0 2, State.mk [2, 2] 0 3 28 0 2,
      State.mk [0, 0] 1 5 25 0 2, State.mk [2, 2] 0 3 20 0 2, State.mk [0, 0] 1 5 17 0 2,
      State.mk [2, 2] 0 3 12 0 2, State.mk [0, 0] 1 6 9 0 2, State.mk [2, 2] 1 3 3 0 2]
    best := [
      (State.mk [0, 0] 0 0 0 0 2, 0), (State.mk [1, 2] 1 1 1 0 2, 1),
      (State.mk [1, 2] 0 2 2 0 2, 2), (State.mk [2, 2] 1 3 3 0 2, 3),
      (State.mk [1, 2] 1 0 3 0 2, 3), (State.mk [1, 2] 0 1 4 0 2, 4),
      (State.mk [0, 0] 1 2 5 0 2, 5), (State.mk [0, 1] 0 3 6 0 2, 6),
      (State.mk [1, 1] 0 0 6 0 2, 6), (State.mk [2, 1] 1 1 7 0 2, 7),
      (State.mk [2, 2] 0 2 8 0 2, 8), (State.mk [1, 1] 1 4 7 0 2, 7),
      (State.mk [2, 1] 1 0 7 0 2, 31), (State.mk [2, 2] 0 1 8 0 2, 32),
      (State.mk [1, 2] 0 5 8 0 2, 8), (State.mk [2, 1] 0 0 8 0 2, 32),
      (State.mk [0, 1] 1 1 9 0 2, 33), (State.mk [0, 0] 1 6 9 0 2, 9),
      (State.mk [1, 0] 1 0 9 0 2, 25), (State.mk [1, 1] 0 1 10 0 2, 26),
      (State.mk [2, 1] 1 2 11 0 2, 27), (State.mk [2, 2] 0 3 12 0 2, 28),
      (State.mk [1, 2] 0 0 12 0 2, 28), (State.mk [0, 0] 1 1 13 0 2, 29),
      (State.mk [0, 1] 0 2 14 0 2, 30), (State.mk [1, 1] 1 3 15 0 2, 31),
      (State.mk [1, 2] 0 4 16 0 2, 32), (State.mk [0, 0] 1 5 17 0 2, 25)]
    max_moves := 32
    states_explored := 50 }

/-- The loop state of the run for `n = 2` after 100 iterations. -/
def run_two_100 : Search :=
  { stack := [
      State.mk [1, 0] 1 0 65 0 2, State.mk [0, 0] 1 5 65 0 2, State.mk [2, 2] 0 3 60 0 2,
      State.mk [0, 0] 1 5 57 0 2, State.mk [2, 2] 0 3 52 0 2, State.mk [0, 0] 1 5 49 0 2,
      State.mk [2, 2] 0 3 44 0 2, State.mk [0, 0] 1 5 41 0 2, State.mk [2, 2] 0 3 36 0 2,
      State.mk [0, 0] 1 5 33 0 2, State.mk [2, 2] 0 3 28 0 2, State.mk [0, 0] 1 5 25 0 2,
      State.mk [2, 2] 0 3 20 0 2, State.mk [0, 0] 1 5 17 0 2, State.mk [2, 2] 0 3 12 0 2,
      State.mk [0, 0] 1 6 9 0 2, State.mk [2, 2] 1 3 3 0 2]
    best := [
      (State.mk [0, 0] 0 0 0 0 2, 0), (State.mk [1, 2] 1 1 1 0 2, 1),
      (State.mk [1, 2] 0 2 2 0 2, 2), (State.mk [2, 2] 1 3 3 0 2, 3),
      (State.mk [1, 2] 1 0 3 0 2, 3), (State.mk [1, 2] 0 1 4 0 2, 4),
      (State.mk [0, 0] 1 2 5 0 2, 5), (State.mk [0, 1] 0 3 6 0 2, 6),
      (State.mk [1, 1] 0 0 6 0 2, 6), (State.mk [2, 1] 1 1 7 0 2, 7),
      (State.mk [2, 2] 0 2 8 0 2, 8), (State.mk [1, 1] 1 4 7 0 2, 7),
      (State.mk [2, 1] 1 0 7 0 2, 63), (State.mk [2, 2] 0 1 8 0 2, 64),
      (State.mk [1, 2] 0 5 8 0 2, 8), (State.mk [2, 1] 0 0 8 0 2, 64),
      (State.mk [0, 1] 1 1 9 0 2, 65), (State.mk [0, 0] 1 6 9 0 2, 9),
      (State.mk [1, 0] 1 0 9 0 2, 65), (State.mk [1, 1] 0 1 10 0 2, 58),
      (State.mk [2, 1] 1 2 11 0 2, 59), (State.mk [2, 2] 0 3 12 0 2, 60),
      (State.mk [1, 2] 0 0 12 0 2, 60), (State.mk [0, 0] 1 1 13 0 2, 61),
      (State.mk [0, 1] 0 2 14 0 2, 62), (State.mk [1, 1] 1 3 15 0 2, 63),
      (State.mk [1, 2] 0 4 16 0 2, 64), (State.mk [0, 0] 1 5 17 0 2, 65)]
    max_moves := 64
    states_explored := 100 }

/-- The loop state of the run for `n = 2` after 150 iterations. -/
def run_two_150 : Search :=
  { stack := [
      State.mk [2, 1] 1 2 99 0 2, State.mk [0, 0] 1 5 97 0 2, State.mk [2, 2] 0 3 92 0 2,
      State.mk [0, 0] 1 5 89 0 2, State.mk [2, 2] 0 3 84 0 2, State.mk [0, 0] 1 5 81 0 2,
      State.mk [2, 2] 0 3 76 0 2, State.mk [0, 0] 1 5 73 0 2, State.mk [2, 2] 0 3 68 0 2,
      State.mk [0, 0] 1 5 65 0 2, State.mk [2, 2] 0 3 60 0 2, State.mk [0, 0] 1 5 57 0 2,
      State.mk [2, 2] 0 3 52 0 2, State.mk [0, 0] 1 5 49 0 2, State.mk [2, 2] 0 3 44 0 2,
      State.mk [0, 0] 1 5 41 0 2, State.mk [2, 2] 0 3 36 0 2, State.mk [0, 0] 1 5 33 0 2,
      State.mk [2, 2] 0 3 28 0 2, State.mk [0, 0] 1 5 25 0 2, State.mk [2, 2] 0 3 20 0 2,
      State.mk [0, 0] 1 5 17 0 2, State.mk [2, 2] 0 3 12 0 2, State.mk [0, 0] 1 6 9 0 2,
      State.mk [2, 2] 1 3 3 0 2]
    best := [
      (State.mk [0, 0] 0 0 0 0 2, 0), (State.mk [1, 2] 1 1 1 0 2, 1),
      (State.mk [1, 2] 0 2 2 0 2, 2), (State.mk [2, 2] 1 3 3 0 2, 3),
      (State.mk [1, 2] 1 0 3 0 2, 3), (State.mk [1, 2] 0 1 4 0 2, 4),
      (State.mk [0, 0] 1 2 5 0 2, 5), (State.mk [0, 1] 0 3 6 0 2, 6),
      (State.mk [1, 1] 0 0 6 0 2, 6), (State.mk [2, 1] 1 1 7 0 2, 7),
      (State.mk [2, 2] 0 2 8 0 2, 8), (State.mk [1, 1] 1 4 7 0 2, 7),
      (State.mk [2, 1] 1 0 7 0 2, 95), (State.mk [2, 2] 0 1 8 0 2, 96),
      (State.mk [1, 2] 0 5 8 0 2, 8), (State.mk [2, 1] 0 0 8 0 2, 96),
      (State.mk [0, 1] 1 1 9 0 2, 97), (State.mk [0, 0] 1 6 9 0 2, 9),
      (State.mk [1, 0] 1 0 9 0 2, 97), (State.mk [1, 1] 0 1 10 0 2, 98),
      (State.mk [2, 1] 1 2 11 0 2, 99), (State.mk [2, 2] 0 3 12 0 2, 92),
      (State.mk [1, 2] 0 0 12 0 2, 92), (State.mk [0, 0] 1 1 13 0 2, 93),
      (State.mk [0, 1] 0 2 14 0 2, 94), (State.mk [1, 1] 1 3 15 0 2, 95),
      (State.mk [1, 2] 0 4 16 0 2, 96), (State.mk [0, 0] 1 5 17 0 2, 97)]
    max_moves := 96
    states_explored := 150 }

/-- The loop state of the run for `n = 2` after 206 iterations. -/
def run_two_206 : Search :=
  { stack := [
      State.mk [0, 0] 1 5 121 0 2, State.mk [2, 2] 0 3 116 0 2, State.mk [0, 0] 1 5 113 0 2,
      State.mk [2, 2] 0 3 108 0 2, State.mk [0, 0] 1 5 105 0 2, State.mk [2, 2] 0 3 100 0 2,
      State.mk [0, 0] 1 5 97 0 2, State.mk [2, 2] 0 3 92 0 2, State.mk [0, 0] 1 5 89 0 2,
      State.mk [2, 2] 0 3 84 0 2, State.mk [0, 0] 1 5 81 0 2, State.mk [2, 2] 0 3 76 0 2,
      State.mk [0, 0] 1 5 73 0 2, State.mk [2, 2] 0 3 68 0 2, State.mk [0, 0] 1 5 65 0 2,
      State.mk [2, 2] 0 3 60 0 2, State.mk [0, 0] 1 5 57 0 2, State.mk [2, 2] 0 3 52 0 2,
      State.mk [0, 0] 1 5 49 0 2, State.mk [2, 2] 0 3 44 0 2, State.mk [0, 0] 1 5 41 0 2,
      State.mk [2, 2] 0 3 36 0 2, State.mk [0, 0] 1 5 33 0 2, State.mk [2, 2] 0 3 28 0 2,
      State.mk [0, 0] 1 5 25 0 2, State.mk [2, 2] 0 3 20 0 2, State.mk [0, 0] 1 5 17 0 2,
      State.mk [2, 2] 0 3 12 0 2, State.mk [0, 0] 1 6 9 0 2, State.mk [2, 2] 1 3 3 0 2]
    best := [
      (State.mk [0, 0] 0 0 0 0 2, 0), (State.mk [1, 2] 1 1 1 0 2, 1),
      (State.mk [1, 2] 0 2 2 0 2, 2), (State.mk [2, 2] 1 3 3 0 2, 3),
      (State.mk [1, 2] 1 0 3 0 2, 3), (State.mk [1, 2] 0 1 4 0 2, 4),
      (State.mk [0, 0] 1 2 5 0 2, 5), (State.mk [0, 1] 0 3 6 0 2, 6),
      (State.mk [1, 1] 0 0 6 0 2, 130), (State.mk [2, 1] 1 1 7 0 2, 7),
      (State.mk [2, 2] 0 2 8 0 2, 8), (State.mk [1, 1] 1 4 7 0 2, 7),
      (State.mk [2, 1] 1 0 7 0 2, 127), (State.mk [2, 2] 0 1 8 0 2, 128),
      (State.mk [1, 2] 0 5 8 0 2, 8), (State.mk [2, 1] 0 0 8 0 2, 128),
      (State.mk [0, 1] 1 1 9 0 2, 129), (State.mk [0, 0] 1 6 9 0 2, 9),
      (State.mk [1, 0] 1 0 9 0 2, 129), (State.mk [1, 1] 0 1 10 0 2, 130),
      (State.mk [2, 1] 1 2 11 0 2, 123), (State.mk [2, 2] 0 3 12 0 2, 124),
      (State.mk [1, 2] 0 0 12 0 2, 124), (State.mk [0, 0] 1 1 13 0 2, 125),
      (State.mk [0, 1] 0 2 14 0 2, 126), (State.mk [1, 1] 1 3 15 0 2, 127),
      (State.mk [1, 2] 0 4 16 0 2, 128), (State.mk [0, 0] 1 5 17 0 2, 129),
      (State.mk [2, 2] 1 2 131 1 2, 131), (State.mk [0, 1] 0 6 130 0 2, 130),
      (State.mk [2, 2] 1 1 131 1 2, 131), (State.mk [2, 2] 1 7 131 1 2, 131),
      (State.mk [2, 2] 1 0 131 1 2, 131)]
    max_moves := 131
    states_explored := 206 }

/-- The loop state of the run for `n = 2` after 256 iterations. -/
def run_two_256 : Search :=
  { stack := [
      State.mk [1, 1] 1 28 31 0 2, State.mk [2, 2] 1 3 3 0 2]
    best := [
      (State.mk [0, 0] 0 0 0 0 2, 0), (State.mk [1, 2] 1 1 1 0 2, 1),
      (State.mk [1, 2] 0 2 2 0 2, 2), (State.mk [2, 2] 1 3 3 0 2, 3),
      (State.mk [1, 2] 1 0 3 0 2, 3), (State.mk [1, 2] 0 1 4 0 2, 4),
      (State.mk [0, 0] 1 2 5 0 2, 5), (State.mk [0, 1] 0 3 6 0 2, 6),
      (State.mk [1, 1] 0 0 6 0 2, 130), (State.mk [2, 1] 1 1 7 0 2, 7),
      (State.mk [2, 2] 0 2 8 0 2, 8), (State.mk [1, 1] 1 4 7 0 2, 7),
      (State.mk [2, 1] 1 0 7 0 2, 127), (State.mk [2, 2] 0 1 8 0 2, 128),
      (State.mk [1, 2] 0 5 8 0 2, 8), (State.mk [2, 1] 0 0 8 0 2, 128),
      (State.mk [0, 1] 1 1 9 0 2, 129), (State.mk [0, 0] 1 6 9 0 2, 9),
      (State.mk [1, 0] 1 0 9 0 2, 129), (State.mk [1, 1] 0 1 10 0 2, 130),
      (State.mk [2, 1] 1 2 11 0 2, 123), (State.mk [2, 2] 0 3 12 0 2, 124),
      (State.mk [1, 2] 0 0 12 0 2, 124), (State.mk [0, 0] 1 1 13 0 2, 125),
      (State.mk [0, 1] 0 2 14 0 2, 126), (State.mk [1, 1] 1 3 15 0 2, 127),
      (State.mk [1, 2] 0 4 16 0 2, 128), (State.mk [0, 0] 1 5 17 0 2, 129),
      (State.mk [2, 2] 1 2 131 1 2, 131), (State.mk [0, 1] 0 6 130 0 2, 130),
      (State.mk [2, 2] 1 1 131 1 2, 131), (State.mk [2, 2] 1 7 131 1 2, 131),
      (State.mk [2, 2] 1 0 131 1 2, 131), (State.mk [0, 1] 0 7 10 0 2, 10),
      (State.mk [1, 1] 1 8 11 0 2, 11), (State.mk [1, 2] 0 9 12 0 2, 12),
      (State.mk [0, 0] 1 10 13 0 2, 13), (State.mk [0, 1] 0 11 14 0 2, 14),
      (State.mk [1, 1] 1 12 15 0 2, 15), (State.mk [1, 2] 0 13 16 0 2, 16),
      (State.mk [0, 0] 1 14 17 0 2, 17), (State.mk [0, 1] 0 15 18 0 2, 18),
      (State.mk [1, 1] 1 16 19 0 2, 19), (State.mk [1, 2] 0 17 20 0 2, 20),
      (State.mk [0, 0] 1 18 21 0 2, 21), (State.mk [0, 1] 0 19 22 0 2, 22),
      (State.mk [1, 1] 1 20 23 0 2, 23), (State.mk [1, 2] 0 21 24 0 2, 24),
      (State.mk [0, 0] 1 22 25 0 2, 25), (State.mk [0, 1] 0 23 26 0 2, 26),
      (State.mk [1, 1] 1 24 27 0 2, 27), (State.mk [1, 2] 0 25 28 0 2, 28),
      (State.mk [0, 0] 1 26 29 0 2, 29), (State.mk [0, 1] 0 27 30 0 2, 30),
      (State.mk [1, 1] 1 28 31 0 2, 31)]
    max_moves := 131
    states_explored := 256 }

/-- The loop state of the run for `n = 2` after 306 iterations. -/
def run_two_306 : Search :=
  { stack := [
      State.mk [0, 0] 1 78 81 0 2, State.mk [2, 2] 1 3 3 0 2]
    best := [
      (State.mk [0, 0] 0 0 0 0 2, 0), (State.mk [1, 2] 1 1 1 0 2, 1),
      (State.mk [1, 2] 0 2 2 0 2, 2), (State.mk [2, 2] 1 3 3 0 2, 3),
      (State.mk [1, 2] 1 0 3 0 2, 3), (State.mk [1, 2] 0 1 4 0 2, 4),
      (State.mk [0, 0] 1 2 5 0 2, 5), (State.mk [0, 1] 0 3 6 0 2, 6),
      (State.mk [1, 1] 0 0 6 0 2, 130), (State.mk [2, 1] 1 1 7 0 2, 7),
      (State.mk [2, 2] 0 2 8 0 2, 8), (State.mk [1, 1] 1 4 7 0 2, 7),
      (State.mk [2, 1] 1 0 7 0 2, 127), (State.mk [2, 2] 0 1 8 0 2, 128),
      (State.mk [1, 2] 0 5 8 0 2, 8), (State.mk [2, 1] 0 0 8 0 2, 128),
      (State.mk [0, 1] 1 1 9 0 2, 129), (State.mk [0, 0] 1 6 9 0 2, 9),
      (State.mk [1, 0] 1 0 9 0 2, 129), (State.mk [1, 1] 0 1 10 0 2, 130),
      (State.mk [2, 1] 1 2 11 0 2, 123), (State.mk [2, 2] 0 3 12 0 2, 124),
      (State.mk [1, 2] 0 0 12 0 2, 124), (State.mk [0, 0] 1 1 13 0 2, 125),
      (State.mk [0, 1] 0 2 14 0 2, 126), (State.mk [1, 1] 1 3 15 0 2, 127),
      (State.mk [1, 2] 0 4 16 0 2, 128), (State.mk [0, 0] 1 5 17 0 2, 129),
      (State.mk [2, 2] 1 2 131 1 2, 131), (State.mk [0, 1] 0 6 130 0 2, 130),
      (State.mk [2, 2] 1 1 131 1 2, 131), (State.mk [2, 2] 1 7 131 1 2, 131),
      (State.mk [2, 2] 1 0 131 1 2, 131), (State.mk [0, 1] 0 7 10 0 2, 10),
      (State.mk [1, 1] 1 8 11 0 2, 11), (State.mk [1, 2] 0 9 12 0 2, 12),
      (State.mk [0, 0] 1 10 13 0 2, 13), (State.mk [0, 1] 0 11 14 0 2, 14),
      (State.mk [1, 1] 1 12 15 0 2, 15), (State.mk [1, 2] 0 13 16 0 2, 16),
      (State.mk [0, 0] 1 14 17 0 2, 17), (State.mk [0, 1] 0 15 18 0 2, 18),
      (State.mk [1, 1] 1 16 19 0 2, 19), (State.mk [1, 2] 0 17 20 0 2, 20),
      (State.mk [0, 0] 1 18 21 0 2, 21), (State.mk [0, 1] 0 19 22 0 2, 22),
      (State.mk [1, 1] 1 20 23 0 2, 23), (State.mk [1, 2] 0 21 24 0 2, 24),
      (State.mk [0, 0] 1 22 25 0 2, 25), (State.mk [0, 1] 0 23 26 0 2, 26),
      (State.mk [1, 1] 1 24 27 0 2, 27), (State.mk [1, 2] 0 25 28 0 2, 28),
      (State.mk [0, 0] 1 26 29 0 2, 29), (State.mk [0, 1] 0 27 30 0 2, 30),
      (State.mk [1, 1] 1 28 31 0 2, 31), (State.mk [1, 2] 0 29 32 0 2, 32),
      (State.mk [0, 0] 1 30 33 0 2, 33), (State.mk [0, 1] 0 31 34 0 2, 34),
      (State.mk [1, 1] 1 32 35 0 2, 35), (State.mk [1, 2] 0 33 36 0 2, 36),
      (State.mk [0, 0] 1 34 37 0 2, 37), (State.mk [0, 1] 0 35 38 0 2, 38),
      (State.mk [1, 1] 1 36 39 0 2, 39), (State.mk [1, 2] 0 37 40 0 2, 40),
      (State.mk [0, 0] 1 38 41 0 2, 41), (State.mk [0, 1] 0 39 42 0 2, 42),
      (State.mk [1, 1] 1 40 43 0 2, 43), (State.mk [1, 2] 0 41 44 0 2, 44),
      (State.mk [0, 0] 1 42 45 0 2, 45), (State.mk [0, 1] 0 43 46 0 2, 46),
      (State.mk [1, 1] 1 44 47 0 2, 47), (State.mk [1, 2] 0 45 48 0 2, 48),
      (State.mk [0, 0] 1 46 49 0 2, 49), (State.mk [0, 1] 0 47 50 0 2, 50),
      (State.mk [1, 1] 1 48 51 0 2, 51), (State.mk [1, 2] 0 49 52 0 2, 52),
      (State.mk [0, 0] 1 50 53 0 2, 53), (State.mk [0, 1] 0 51 54 0 2, 54),
      (State.mk [1, 1] 1 52 55 0 2, 55), (State.mk [1, 2] 0 53 56 0 2, 56),
      (State.mk [0, 0] 1 54 57 0 2, 57), (State.mk [0, 1] 0 55 58 0 2, 58),
      (State.mk [1, 1] 1 56 59 0 2, 59), (State.mk [1, 2] 0 57 60 0 2, 60),
      (State.mk [0, 0] 1 58 61 0 2, 61), (State.mk [0, 1] 0 59 62 0 2, 62),
      (State.mk [1, 1] 1 60 63 0 2, 63), (State.mk [1, 2] 0 61 64 0 2, 64),
      (State.mk [0, 0] 1 62 65 0 2, 65), (State.mk [0, 1] 0 63 66 0 2, 66),
      (State.mk [1, 1] 1 64 67 0 2, 67), (State.mk [1, 2] 0 65 68 0 2, 68),
      (State.mk [0, 0] 1 66 69 0 2, 69), (State.mk [0, 1] 0 67 70 0 2, 70),
      (State.mk [1, 1] 1 68 71 0 2, 71), (State.mk [1, 2] 0 69 72 0 2, 72),
      (State.mk [0, 0] 1 70 73 0 2, 73), (State.mk [0, 1] 0 71 74 0 2, 74),
      (State.mk [1, 1] 1 72 75 0 2, 75), (State.mk [1, 2] 0 73 76 0 2, 76),
      (State.mk [0, 0] 1 74 77 0 2, 77), (State.mk [0, 1] 0 75 78 0 2, 78),
      (State.mk [1, 1] 1 76 79 0 2, 79), (State.mk [1, 2] 0 77 80 0 2, 80),
      (State.mk [0, 0] 1 78 81 0 2, 81)]
    max_moves := 131
    states_explored := 306 }

/-! ## The order on states -/

theorem vecLt_irrefl (a : List Int) : vecLt a a = false := by
  induction a with
  | nil => rfl
  | cons x xs ih => simp [vecLt, ih]

theorem vecLt_iff_lex (a b : List Int) : vecLt a b = true ↔ List.Lex (· < ·) a b := by
  induction a generalizing b with
  | nil =>
    cases b with
    | nil => simp [vecLt]
    | cons y ys => simp [vecLt, List.Lex.nil]
  | cons x xs ih =>
    cases b with
    | nil => simp [vecLt]
    | cons y ys =>
      rcases lt_trichotomy x y with h | h | h
      · simp [vecLt, h, List.Lex.rel h]
      · subst h
        simp [vecLt, ih, List.Lex.cons_iff]
      · have h1 : ¬ x < y := not_lt.mpr h.le
        have h2 : x ≠ y := ne_of_gt h
        simp only [vecLt, h1, h, if_true, if_false]
        constructor
        · intro hf; exact absurd hf (by simp)
        · intro hl
          cases hl with
          | cons hl => exact absurd rfl h2
          | rel hl => exact absurd hl h1

theorem vecLt_total (a b : List Int) (h : a ≠ b) : vecLt a b = true ∨ vecLt b a = true := by
  induction a generalizing b with
  | nil =>
    cases b with
    | nil => exact absurd rfl h
    | cons y ys => simp [vecLt]
  | cons x xs ih =>
    cases b with
    | nil => simp [vecLt]
    | cons y ys =>
      rcases lt_trichotomy x y with hxy | hxy | hxy
      · simp [vecLt, hxy]
      · subst hxy
        have hne : xs ≠ ys := fun e => h (by rw [e])
        simpa [vecLt] using ih ys hne
      · right; simp [vecLt, hxy]

theorem vecLt_asymm (a b : List Int) (h : vecLt a b = true) : vecLt b a = false := by
  induction a generalizing b with
  | nil =>
    cases b with
    | nil => simp [vecLt]
    | cons y ys => simp [vecLt]
  | cons x xs ih =>
    cases b with
    | nil => simp [vecLt] at h
    | cons y ys =>
      rcases lt_trichotomy x y with hxy | hxy | hxy
      · have h1 : ¬ y < x := not_lt.mpr hxy.le
        simp [vecLt, hxy, h1]
      · subst hxy
        simp only [vecLt, lt_self_iff_false, if_false] at h ⊢
        exact ih ys h
      · have h1 : ¬ x < y := not_lt.mpr hxy.le
        simp [vecLt, hxy, h1] at h

theorem vecLt_trans (a b c : List Int) (hab : vecLt a b = true) (hbc : vecLt b c = true) :
    vecLt a c = true := by
  induction a generalizing b c with
  | nil =>
    cases b with
    | nil => simp [vecLt] at hab
    | cons y ys =>
      cases c with
      | nil => simp [vecLt] at hbc
      | cons z zs => simp [vecLt]
  | cons x xs ih =>
    cases b with
    | nil => simp [vecLt] at hab
    | cons y ys =>
      cases c with
      | nil => simp [vecLt] at hbc
      | cons z zs =>
        simp only [vecLt] at hab hbc ⊢
        by_cases hxy : x < y
        · by_cases hyz : y < z
          · simp [lt_trans hxy hyz]
          · by_cases hzy : z < y
            · simp [hyz, hzy] at hbc
            · have : y = z := le_antisymm (not_lt.mp hzy) (not_lt.mp hyz)
              subst this
              simp [hxy]
        · by_cases hyx : y < x
          · simp [hxy, hyx] at hab
          · have : x = y := le_antisymm (not_lt.mp hyx) (not_lt.mp hxy)
            subst this
            simp only [hxy, if_false] at hab
            by_cases hxz : x < z
            · simp [hxz]
            · by_cases hzx : z < x
              · simp [hxz, hzx] at hbc
              · simp only [hxz, hzx, if_false] at hbc ⊢
                exact ih ys zs hab hbc

theorem State.lt_iff_spec (a b : State) : a.lt b = true ↔ specLexLt a b := by
  have hirr : ∀ l : List Int, ¬ List.Lex (· < ·) l l := fun l hl => by
    have := (vecLt_iff_lex l l).mpr hl
    simp [vecLt_irrefl] at this
  unfold State.lt specLexLt
  by_cases hm : a.magnitudes = b.magnitudes
  · by_cases hp : a.current_pos = b.current_pos
    · by_cases hs : a.moves_since_plus2 = b.moves_since_plus2
      · simp [hm, hp, hs, hirr]
      · have hs' : ¬ (a.moves_since_plus2 = b.moves_since_plus2) := hs
        simp [hm, hp, hs', hirr]
    · simp [hm, hp, hirr]
  · have : ¬ (a.magnitudes = b.magnitudes) := hm
    simp [hm, vecLt_iff_lex]

theorem State.lt_irrefl (a : State) : a.lt a = false := by
  simp [State.lt]

theorem State.lt_of_key_eq (a b : State) (h : a.key = b.key) : a.lt b = false := by
  simp only [State.key, Prod.mk.injEq] at h
  obtain ⟨h1, h2, h3, h4⟩ := h
  simp [State.lt, h1, h2, h3, h4]

theorem State.lt_total (a b : State) (h : a.key ≠ b.key) : a.lt b = true ∨ b.lt a = true := by
  unfold State.lt
  by_cases hm : a.magnitudes = b.magnitudes
  · by_cases hp : a.current_pos = b.current_pos
    · by_cases hs : a.moves_since_plus2 = b.moves_since_plus2
      · have hi : a.injection_cycle ≠ b.injection_cycle := fun e =>
          h (by simp [State.key, hm, hp, hs, e])
        simp only [hm, hp, hs, ne_eq, not_true_eq_false, if_false, decide_eq_true_eq]
        exact lt_or_gt_of_ne hi
      · simp only [hm, hp, ne_eq, not_true_eq_false, if_false, hs, not_false_eq_true, if_true,
          Ne.symm hs, decide_eq_true_eq]
        exact lt_or_gt_of_ne hs
    · simp only [hm, ne_eq, not_true_eq_false, if_false, hp, not_false_eq_true, if_true,
        Ne.symm hp, decide_eq_true_eq]
      exact lt_or_gt_of_ne hp
  · simp only [ne_eq, hm, not_false_eq_true, if_true, Ne.symm hm]
    exact vecLt_total _ _ hm

theorem State.lt_asymm (a b : State) (h : a.lt b = true) : b.lt a = false := by
  rw [State.lt_iff_spec] at h
  rw [← Bool.not_eq_true, State.lt_iff_spec]
  intro h'
  unfold specLexLt at h h'
  rcases h with h | ⟨hm, h⟩
  · rcases h' with h' | ⟨hm', _⟩
    · have := vecLt_asymm _ _ ((vecLt_iff_lex _ _).mpr h)
      rw [(vecLt_iff_lex _ _).mpr h'] at this
      exact absurd this (by simp)
    · rw [hm'] at h
      have := (vecLt_iff_lex _ _).mpr h
      simp [vecLt_irrefl] at this
  · rcases h' with h' | ⟨_, h'⟩
    · rw [hm] at h'
      have := (vecLt_iff_lex _ _).mpr h'
      simp [vecLt_irrefl] at this
    · omega

theorem State.lt_trans (a b c : State) (hab : a.lt b = true) (hbc : b.lt c = true) :
    a.lt c = true := by
  rw [State.lt_iff_spec] at hab hbc ⊢
  unfold specLexLt at hab hbc ⊢
  rcases hab with hab | ⟨hm, hab⟩
  · rcases hbc with hbc | ⟨hm', _⟩
    · left
      exact (vecLt_iff_lex _ _).mp
        (vecLt_trans _ _ _ ((vecLt_iff_lex _ _).mpr hab) ((vecLt_iff_lex _ _).mpr hbc))
    · left; rw [← hm']; exact hab
  · rcases hbc with hbc | ⟨hm', hbc⟩
    · left; rw [hm]; exact hbc
    · right
      refine ⟨hm.trans hm', ?_⟩
      omega

theorem keyEquiv_eq_decide (a b : State) : keyEquiv a b = decide (a.key = b.key) := by
  by_cases h : a.key = b.key
  · simp [keyEquiv, State.lt_of_key_eq a b h, State.lt_of_key_eq b a h.symm, h]
  · rcases State.lt_total a b h with h1 | h1
    · simp [keyEquiv, h1, h]
    · simp [keyEquiv, h1, h]

theorem keyEquiv_iff (a b : State) : keyEquiv a b = true ↔ a.key = b.key := by
  simp [keyEquiv_eq_decide]

/-! ## The best-known-depth map -/

theorem BestMap.find_congr (m : BestMap) (a b : State) (h : a.key = b.key) :
    m.find a = m.find b := by
  induction m with
  | nil => rfl
  | cons e rest ih =>
    obtain ⟨k, d⟩ := e
    simp only [BestMap.find, keyEquiv_eq_decide, h, ih]

theorem BestMap.find_assign (m : BestMap) (s t : State) (d : Int) :
    (m.assign s d).find t = if s.key = t.key then some d else m.find t := by
  induction m with
  | nil => simp [BestMap.assign, BestMap.find, keyEquiv_eq_decide]
  | cons e rest ih =>
    obtain ⟨k, w⟩ := e
    by_cases hks : k.key = s.key
    · by_cases hst : s.key = t.key
      · simp [BestMap.assign, BestMap.find, keyEquiv_eq_decide, hks, hst]
      · have hkt : ¬ k.key = t.key := fun e => hst (hks.symm.trans e)
        simp [BestMap.assign, BestMap.find, keyEquiv_eq_decide, hks, hst]
    · by_cases hst : s.key = t.key
      · have hkt : ¬ k.key = t.key := fun e => hks (e.trans hst.symm)
        simp [BestMap.assign, BestMap.find, keyEquiv_eq_decide, hks, hst, hkt, ih]
      · simp [BestMap.assign, BestMap.find, keyEquiv_eq_decide, hks, hst, ih]

theorem BestMap.find_assign_self (m : BestMap) (s : State) (d : Int) :
    (m.assign s d).find s = some d := by
  simp [BestMap.find_assign]

theorem BestMap.le_refl (m : BestMap) : m.le m :=
  fun _ d h => ⟨d, h, Int.le_refl d⟩

theorem BestMap.le_trans {m₁ m₂ m₃ : BestMap} (h₁ : m₁.le m₂) (h₂ : m₂.le m₃) : m₁.le m₃ := by
  intro s d hd
  obtain ⟨d', hd', hle⟩ := h₁ s d hd
  obtain ⟨d'', hd'', hle'⟩ := h₂ s d' hd'
  exact ⟨d'', hd'', Int.le_trans hle hle'⟩

/-- What `offer` does when the candidate passes the test of the `if`. -/
theorem offer_of_pass (best : BestMap) (stack : List State) (C : State)
    (h : best.find C = none ∨ ∃ d, best.find C = some d ∧ d < C.total_moves) :
    offer (best, stack) C = (best.assign C C.total_moves, C :: stack) := by
  unfold offer
  rcases h with h | ⟨d, h, hd⟩
  · simp [h]
  · simp [h, hd]

/-- What `offer` does when the candidate fails the test of the `if`. -/
theorem offer_of_fail (best : BestMap) (stack : List State) (C : State) (d : Int)
    (h : best.find C = some d) (hd : C.total_moves ≤ d) :
    offer (best, stack) C = (best, stack) := by
  unfold offer
  simp [h, not_lt.mpr hd]

theorem offer_cases (best : BestMap) (stack : List State) (C : State) :
    ((best.find C = none ∨ ∃ d, best.find C = some d ∧ d < C.total_moves) ∧
      offer (best, stack) C = (best.assign C C.total_moves, C :: stack)) ∨
    ((∃ d, best.find C = some d ∧ C.total_moves ≤ d) ∧ offer (best, stack) C = (best, stack)) := by
  cases h : best.find C with
  | none => exact Or.inl ⟨Or.inl rfl, offer_of_pass best stack C (Or.inl h)⟩
  | some d =>
    by_cases hd : d < C.total_moves
    · exact Or.inl ⟨Or.inr ⟨d, rfl, hd⟩, offer_of_pass best stack C (Or.inr ⟨d, h, hd⟩)⟩
    · exact Or.inr ⟨⟨d, rfl, not_lt.mp hd⟩, offer_of_fail best stack C d h (not_lt.mp hd)⟩

theorem offer_le (best : BestMap) (stack : List State) (C : State) :
    best.le (offer (best, stack) C).1 := by
  rcases offer_cases best stack C with ⟨hc, he⟩ | ⟨_, he⟩
  · rw [he]
    intro s d hs
    simp only [BestMap.find_assign]
    by_cases hk : C.key = s.key
    · rw [BestMap.find_congr best C s hk, hs] at hc
      rcases hc with hc | ⟨d', hd', hlt⟩
      · exact absurd hc (by simp)
      · simp only [Option.some.injEq] at hd'
        subst hd'
        exact ⟨C.total_moves, by simp [hk], le_of_lt hlt⟩
    · exact ⟨d, by simp [hk, hs], le_refl d⟩
  · rw [he]
    exact BestMap.le_refl best

theorem offer_records (best : BestMap) (stack : List State) (C : State) :
    ∃ d, (offer (best, stack) C).1.find C = some d ∧ C.total_moves ≤ d := by
  rcases offer_cases best stack C with ⟨_, he⟩ | ⟨⟨d, hd, hle⟩, he⟩
  · rw [he]
    exact ⟨C.total_moves, BestMap.find_assign_self best C _, le_refl _⟩
  · rw [he]
    exact ⟨d, hd, hle⟩

theorem frontier_covered_of_le {m m' : BestMap} {stack : List State} (h : m.le m')
    (hc : frontier_covered m stack) : frontier_covered m' stack := by
  intro s hs
  obtain ⟨d, hd, hle⟩ := hc s hs
  obtain ⟨d', hd', hle'⟩ := h s d hd
  exact ⟨d', hd', le_trans hle hle'⟩

theorem offer_covered (best : BestMap) (stack : List State) (C : State)
    (hc : frontier_covered best stack) :
    frontier_covered (offer (best, stack) C).1 (offer (best, stack) C).2 := by
  have hle := offer_le best stack C
  have hrec := offer_records best stack C
  rcases offer_cases best stack C with ⟨_, he⟩ | ⟨_, he⟩
  · intro s hs
    rw [he] at hs
    rcases List.mem_cons.mp hs with rfl | hs
    · exact hrec
    · exact frontier_covered_of_le hle hc s hs
  · rw [he]
    exact hc

theorem foldl_offer_le (nexts : List State) (acc : BestMap × List State) :
    acc.1.le (nexts.foldl offer acc).1 := by
  induction nexts generalizing acc with
  | nil => exact BestMap.le_refl _
  | cons C rest ih =>
    simp only [List.foldl_cons]
    exact BestMap.le_trans (offer_le acc.1 acc.2 C) (ih _)

theorem foldl_offer_covered (nexts : List State) (acc : BestMap × List State)
    (hc : frontier_covered acc.1 acc.2) :
    frontier_covered (nexts.foldl offer acc).1 (nexts.foldl offer acc).2 := by
  induction nexts generalizing acc with
  | nil => exact hc
  | cons C rest ih =>
    simp only [List.foldl_cons]
    exact ih _ (offer_covered acc.1 acc.2 C hc)

/-! ## The loop -/

/-- The two ways an iteration of the loop can produce the next loop state. -/
theorem loop_body_cases {n : Int} {c c' : Search} {current : State} {rest : List State}
    (hs : c.stack = current :: rest) (h : loop_body n c = some c') :
    (current.is_goal = true ∧
      c' = { stack := rest, best := c.best,
             max_moves := max c.max_moves current.total_moves,
             states_explored := c.states_explored + 1 }) ∨
    (current.is_goal = false ∧ ∃ nexts, generate_next_states n current = some nexts ∧
      c' = { stack := (nexts.foldl offer (c.best, rest)).2,
             best := (nexts.foldl offer (c.best, rest)).1,
             max_moves := c.max_moves,
             states_explored := c.states_explored + 1 }) := by
  unfold loop_body at h
  rw [hs] at h
  by_cases hg : current.is_goal = true
  · left
    simp only [hg, if_true, Option.some.injEq] at h
    exact ⟨hg, h.symm⟩
  · right
    simp only [hg, Bool.false_eq_true, if_false] at h
    cases hgen : generate_next_states n current with
    | none => simp [hgen] at h
    | some nexts =>
      simp only [hgen, Option.some.injEq] at h
      exact ⟨by simpa using hg, nexts, rfl, h.symm⟩

theorem loop_body_le {n : Int} {c c' : Search} (h : loop_body n c = some c') :
    c.best.le c'.best := by
  cases hs : c.stack with
  | nil =>
    unfold loop_body at h
    simp only [hs, Option.some.injEq] at h
    subst h
    exact BestMap.le_refl _
  | cons current rest =>
    rcases loop_body_cases hs h with ⟨_, he⟩ | ⟨_, nexts, _, he⟩
    · subst he; exact BestMap.le_refl _
    · subst he; exact foldl_offer_le nexts (c.best, rest)

theorem iterate_loop_le {n : Int} (k : Nat) {c c' : Search} (h : iterate_loop n k c = some c') :
    c.best.le c'.best := by
  induction k generalizing c with
  | zero =>
    simp only [iterate_loop, Option.some.injEq] at h
    subst h; exact BestMap.le_refl _
  | succ k ih =>
    unfold iterate_loop at h
    by_cases hs : c.stack = []
    · simp only [hs, if_true, Option.some.injEq] at h
      subst h; exact BestMap.le_refl _
    · simp only [hs, if_false] at h
      cases hb : loop_body n c with
      | none => simp [hb] at h
      | some c₁ =>
        simp only [hb] at h
        exact BestMap.le_trans (loop_body_le hb) (ih h)

theorem iterate_loop_reachable {n : Int} (k : Nat) {c c' : Search} (hr : Reachable n c)
    (h : iterate_loop n k c = some c') : Reachable n c' := by
  induction k generalizing c with
  | zero =>
    simp only [iterate_loop, Option.some.injEq] at h
    subst h; exact hr
  | succ k ih =>
    unfold iterate_loop at h
    by_cases hs : c.stack = []
    · simp only [hs, if_true, Option.some.injEq] at h
      subst h; exact hr
    · simp only [hs, if_false] at h
      cases hb : loop_body n c with
      | none => simp [hb] at h
      | some c₁ =>
        simp only [hb] at h
        exact ih (Reachable.step hr hs hb) h

theorem reachable_covered {n : Int} {c : Search} (hr : Reachable n c) :
    frontier_covered c.best c.stack := by
  induction hr with
  | start =>
    intro s hs
    simp only [Search.start, List.mem_singleton] at hs
    subst hs
    exact ⟨0, by simp [Search.start, BestMap.find, keyEquiv_eq_decide], by simp [State.initial]⟩
  | @step c c' _ hne hb ih =>
    cases hs : c.stack with
    | nil => exact absurd hs hne
    | cons current rest =>
      have hrest : frontier_covered c.best rest := fun s hmem =>
        ih s (by rw [hs]; exact List.mem_cons_of_mem _ hmem)
      rcases loop_body_cases hs hb with ⟨_, he⟩ | ⟨_, nexts, _, he⟩
      · subst he; exact hrest
      · subst he; exact foldl_offer_covered nexts (c.best, rest) hrest

/-! ## Magnitudes stay in range -/

theorem decFirst_length (mx : Int) (l : List Int) : (decFirst mx l).length = l.length := by
  induction l with
  | nil => rfl
  | cons x xs ih =>
    by_cases h : x = mx
    · simp [decFirst, h]
    · simp [decFirst, h, ih]

theorem incFirst_length (n mn : Int) (l : List Int) : (incFirst n mn l).length = l.length := by
  induction l with
  | nil => rfl
  | cons x xs ih =>
    by_cases h : x = mn
    · simp [incFirst, h]
    · simp [incFirst, h, ih]

theorem decFirst_bound (n mx : Int) (l : List Int) (h : ∀ m ∈ l, 0 ≤ m ∧ m ≤ n) :
    ∀ m ∈ decFirst mx l, 0 ≤ m ∧ m ≤ n := by
  induction l with
  | nil => simp [decFirst]
  | cons x xs ih =>
    have hx := h x (List.mem_cons_self _ _)
    have hxs : ∀ m ∈ xs, 0 ≤ m ∧ m ≤ n := fun m hm => h m (List.mem_cons_of_mem _ hm)
    intro m hm
    by_cases hc : x = mx
    · simp only [decFirst, hc, if_true, List.mem_cons] at hm
      rcases hm with rfl | hm
      · subst hc; omega
      · exact hxs m hm
    · simp only [decFirst, hc, if_false, List.mem_cons] at hm
      rcases hm with rfl | hm
      · exact hx
      · exact ih hxs m hm

theorem incFirst_bound (n mn : Int) (l : List Int) (hn : 0 ≤ n) (h : ∀ m ∈ l, 0 ≤ m ∧ m ≤ n) :
    ∀ m ∈ incFirst n mn l, 0 ≤ m ∧ m ≤ n := by
  induction l with
  | nil => simp [incFirst]
  | cons x xs ih =>
    have hx := h x (List.mem_cons_self _ _)
    have hxs : ∀ m ∈ xs, 0 ≤ m ∧ m ≤ n := fun m hm => h m (List.mem_cons_of_mem _ hm)
    intro m hm
    by_cases hc : x = mn
    · simp only [incFirst, hc, if_true, List.mem_cons] at hm
      rcases hm with rfl | hm
      · subst hc; omega
      · exact hxs m hm
    · simp only [incFirst, hc, if_false, List.mem_cons] at hm
      rcases hm with rfl | hm
      · exact hx
      · exact ih hxs m hm

theorem apply_trigger_bounded {n : Int} {s : State} (hn : 0 ≤ n) (h : s.bounded n) :
    (apply_trigger n s).bounded n := by
  obtain ⟨h1, h2, h3⟩ := h
  refine ⟨h1, ?_, ?_⟩
  · simp only [apply_trigger, incFirst_length, decFirst_length]
    exact h2
  · simp only [apply_trigger]
    exact incFirst_bound n _ _ hn (decFirst_bound n _ _ h3)

theorem bump_bounded {n k : Int} {s s' : State} (hn : 0 ≤ n) (hk : 0 ≤ k) (h : s.bounded n)
    (hb : bump n s k = some s') : s'.bounded n := by
  obtain ⟨h1, h2, h3⟩ := h
  unfold bump at hb
  split at hb
  · rename_i hpos
    simp only [Option.some.injEq] at hb
    subst hb
    refine ⟨h1, ?_, ?_⟩
    · simp only [List.length_set]; exact h2
    · intro m hm
      simp only at hm
      rcases List.mem_or_eq_of_mem_set hm with hm | rfl
      · exact h3 m hm
      · have hlt : s.current_pos.toNat < s.magnitudes.length := by omega
        have hget := h3 _ (List.getElem_mem hlt)
        rw [List.getD_eq_getElem _ _ hlt]
        omega
  · exact absurd hb (by simp)

theorem apply_periodic_effects_bounded {n : Int} {s : State} (hn : 0 ≤ n) (h : s.bounded n) :
    (apply_periodic_effects n s).bounded n := by
  obtain ⟨h1, h2, h3⟩ := h
  have hflip : s.apply_flip.bounded n := by
    refine ⟨h1, ?_, ?_⟩
    · simp only [State.apply_flip, List.length_map]; exact h2
    · intro m hm
      simp only [State.apply_flip, List.mem_map] at hm
      obtain ⟨a, ha, rfl⟩ := hm
      have := h3 a ha
      omega
  have hinj : ∀ t : State, t.bounded n →
      State.bounded n { t with magnitudes := t.magnitudes.map (fun mag => min n (mag + 1)),
                               injection_cycle := t.injection_cycle + 1 } := by
    intro t ht
    obtain ⟨t1, t2, t3⟩ := ht
    refine ⟨t1, ?_, ?_⟩
    · simp only [List.length_map]; exact t2
    · intro m hm
      simp only [List.mem_map] at hm
      obtain ⟨a, ha, rfl⟩ := hm
      have := t3 a ha
      omega
  have hstep : ∀ t : State, t.bounded n →
      State.bounded n (if 0 < t.total_moves ∧ t.total_moves.tmod 131 = 0 then
        { t with magnitudes := t.magnitudes.map (fun mag => min n (mag + 1)),
                 injection_cycle := t.injection_cycle + 1 } else t) := by
    intro t ht
    split
    · exact hinj t ht
    · exact ht
  have hfirst : ∀ p : Prop, [Decidable p] → State.bounded n (if p then s.apply_flip else s) := by
    intro p _
    split
    · exact hflip
    · exact ⟨h1, h2, h3⟩
  exact hstep _ (hfirst _)

/-! ## Successors -/

theorem apply_periodic_effects_fields (n : Int) (s : State) :
    (apply_periodic_effects n s).total_moves = s.total_moves ∧
    (apply_periodic_effects n s).current_pos = s.current_pos ∧
    (apply_periodic_effects n s).moves_since_plus2 = s.moves_since_plus2 ∧
    (apply_periodic_effects n s).n = s.n := by
  unfold apply_periodic_effects State.apply_flip
  dsimp only
  split_ifs <;> simp

theorem moved_state_fields (n : Int) (s : State) (p : Int) :
    (moved_state n s p).total_moves = s.total_moves + 1 ∧
    (moved_state n s p).current_pos = p ∧
    (moved_state n s p).moves_since_plus2 = s.moves_since_plus2 ∧
    (moved_state n s p).n = s.n := by
  unfold moved_state
  exact apply_periodic_effects_fields n _

theorem moved_state_bounded {n : Int} {s : State} (p : Int) (hn : 0 ≤ n) (h : s.bounded n) :
    (moved_state n s p).bounded n := by
  unfold moved_state
  exact apply_periodic_effects_bounded hn h

theorem mem_generate_movements {n : Int} {s t : State} (h : t ∈ generate_movements n s) :
    t.valid_ordering = true ∧ ∃ p ∈ next_positions n s, t = moved_state n s p := by
  unfold generate_movements at h
  rw [List.mem_filter, List.mem_map] at h
  obtain ⟨⟨p, hp, rfl⟩, hv⟩ := h
  exact ⟨hv, p, hp, rfl⟩

theorem bump_fields {n k : Int} {s s' : State} (hb : bump n s k = some s') :
    s'.current_pos = s.current_pos ∧ s'.total_moves = s.total_moves ∧
    s'.moves_since_plus2 = s.moves_since_plus2 ∧ s'.injection_cycle = s.injection_cycle ∧
    s'.n = s.n ∧ 0 ≤ s.current_pos ∧ s.current_pos < s.magnitudes.length := by
  unfold bump at hb
  split at hb
  · rename_i hpos
    simp only [Option.some.injEq] at hb
    subst hb
    exact ⟨rfl, rfl, rfl, rfl, rfl, hpos.1, hpos.2⟩
  · exact absurd hb (by simp)

theorem mem_generate_next_states {n : Int} {s t : State} {nexts : List State}
    (h : generate_next_states n s = some nexts) (ht : t ∈ nexts) :
    ∃ s', post_move n s s' ∧ t ∈ generate_movements n s' := by
  unfold generate_next_states try_operation at h
  simp only [if_true] at h
  cases h1 : bump n s 1 with
  | none => simp [h1] at h
  | some b1 =>
    simp only [h1] at h
    by_cases hm : 2 ≤ s.moves_since_plus2
    · simp only [hm, if_true] at h
      cases h2 : bump n s 2 with
      | none => simp [h2] at h
      | some b2 =>
        simp only [h2, show ¬ ((2 : Int) = 1) by decide, if_false, Option.some.injEq] at h
        subst h
        rcases List.mem_append.mp ht with ht | ht
        · exact ⟨_, Or.inl ⟨b1, h1, rfl⟩, ht⟩
        · exact ⟨_, Or.inr ⟨hm, b2, h2, rfl⟩, ht⟩
    · simp only [hm, if_false, Option.some.injEq] at h
      subst h
      exact ⟨_, Or.inl ⟨b1, h1, rfl⟩, ht⟩

theorem post_move_fields {n : Int} {s s' : State} (h : post_move n s s') :
    s'.current_pos = s.current_pos ∧ s'.total_moves = s.total_moves ∧ s'.n = s.n ∧
    0 ≤ s.current_pos ∧ s.current_pos < s.magnitudes.length := by
  rcases h with ⟨b, hb, rfl⟩ | ⟨_, b, hb, rfl⟩
  · obtain ⟨h1, h2, _, _, h5, h6, h7⟩ := bump_fields hb
    exact ⟨h1, h2, h5, h6, h7⟩
  · obtain ⟨h1, h2, _, _, h5, h6, h7⟩ := bump_fields hb
    exact ⟨h1, h2, h5, h6, h7⟩

theorem post_move_bounded {n : Int} {s s' : State} (hn : 0 ≤ n) (hs : s.bounded n)
    (h : post_move n s s') : s'.bounded n := by
  rcases h with ⟨b, hb, rfl⟩ | ⟨_, b, hb, rfl⟩
  · have hb' : b.bounded n := bump_bounded hn (by decide) hs hb
    exact ⟨hb'.1, hb'.2.1, hb'.2.2⟩
  · have hb' : (apply_trigger n b).bounded n :=
      apply_trigger_bounded hn (bump_bounded hn (by decide) hs hb)
    exact ⟨hb'.1, hb'.2.1, hb'.2.2⟩

/-- What every successor of `s` satisfies. -/
theorem next_state_props {n : Int} {s t : State} {nexts : List State}
    (h : generate_next_states n s = some nexts) (ht : t ∈ nexts) :
    t.valid_ordering = true ∧ t.total_moves = s.total_moves + 1 ∧ t.n = s.n ∧
    t.current_pos ∈ next_positions n s ∧ (0 ≤ n → s.bounded n → t.bounded n) := by
  obtain ⟨s', hpm, hmem⟩ := mem_generate_next_states h ht
  obtain ⟨hv, p, hp, rfl⟩ := mem_generate_movements hmem
  obtain ⟨f1, f2, f3, _, _⟩ := post_move_fields hpm
  obtain ⟨m1, m2, _, m4⟩ := moved_state_fields n s' p
  have hnp : next_positions n s' = next_positions n s := by
    unfold next_positions
    rw [f1]
  refine ⟨hv, by rw [m1, f2], by rw [m4, f3], ?_, ?_⟩
  · rw [m2, ← hnp]; exact hp
  · intro hn hs
    exact moved_state_bounded p hn (post_move_bounded hn hs hpm)

theorem mem_foldl_offer (nexts : List State) (acc : BestMap × List State) (s : State)
    (h : s ∈ (nexts.foldl offer acc).2) : s ∈ acc.2 ∨ s ∈ nexts := by
  induction nexts generalizing acc with
  | nil => exact Or.inl h
  | cons C rest ih =>
    simp only [List.foldl_cons] at h
    rcases ih _ h with h' | h'
    · rcases offer_cases acc.1 acc.2 C with ⟨_, he⟩ | ⟨_, he⟩
      · rw [he] at h'
        rcases List.mem_cons.mp h' with rfl | h''
        · exact Or.inr (List.mem_cons_self _ _)
        · exact Or.inl h''
      · rw [he] at h'
        exact Or.inl h'
    · exact Or.inr (List.mem_cons_of_mem _ h')

/-- A property of the initial state that every expansion hands on to the
successors holds of every state on the frontier. -/
theorem reachable_stack_inv {n : Int} (P : State → Prop) (h0 : P (State.initial n))
    (hstep : ∀ s nexts, P s → generate_next_states n s = some nexts → ∀ t ∈ nexts, P t)
    {c : Search} (hr : Reachable n c) : ∀ s ∈ c.stack, P s := by
  induction hr with
  | start =>
    intro s hs
    simp only [Search.start, List.mem_singleton] at hs
    subst hs
    exact h0
  | @step c c' _ hne hb ih =>
    cases hs : c.stack with
    | nil => exact absurd hs hne
    | cons current rest =>
      have hcur : P current := ih current (by rw [hs]; exact List.mem_cons_self _ _)
      have hrest : ∀ s ∈ rest, P s := fun s hmem =>
        ih s (by rw [hs]; exact List.mem_cons_of_mem _ hmem)
      rcases loop_body_cases hs hb with ⟨_, he⟩ | ⟨_, nexts, hgen, he⟩
      · subst he; exact hrest
      · subst he
        intro s hmem
        rcases mem_foldl_offer nexts (c.best, rest) s hmem with h' | h'
        · exact hrest s h'
        · exact hstep current nexts hcur hgen s h'

theorem validLoop_zeros (k : Nat) : validLoop 0 (List.replicate k 0) = true := by
  induction k with
  | zero => rfl
  | succ k ih => simp [List.replicate_succ, validLoop, ih]

theorem initial_valid_ordering (n : Int) : (State.initial n).valid_ordering = true := by
  unfold State.valid_ordering State.initial
  cases h : n.toNat with
  | zero => simp
  | succ k => simp [List.replicate_succ, validLoop_zeros]

theorem initial_bounded {n : Int} (hn : 0 ≤ n) : (State.initial n).bounded n := by
  refine ⟨rfl, ?_, ?_⟩
  · simp [State.initial, Int.toNat_of_nonneg hn]
  · intro m hm
    simp only [State.initial] at hm
    have := List.eq_of_mem_replicate hm
    omega

theorem reachable_bounded_valid {n : Int} (hn : 0 ≤ n) {c : Search} (hr : Reachable n c) :
    ∀ s ∈ c.stack, s.bounded n ∧ s.valid_ordering = true := by
  apply reachable_stack_inv (fun s => s.bounded n ∧ s.valid_ordering = true) _ _ hr
  · exact ⟨initial_bounded hn, initial_valid_ordering n⟩
  · intro s nexts hs hgen t ht
    obtain ⟨hv, _, _, _, hb⟩ := next_state_props hgen ht
    exact ⟨hb hn hs.1, hv⟩

theorem reachable_total_moves_nonneg {n : Int} {c : Search} (hr : Reachable n c) :
    ∀ s ∈ c.stack, 0 ≤ s.total_moves := by
  apply reachable_stack_inv (fun s => 0 ≤ s.total_moves) _ _ hr
  · simp [State.initial]
  · intro s nexts hs hgen t ht
    obtain ⟨_, htm, _⟩ := next_state_props hgen ht
    simp only at hs
    omega

/-! ## Fuel and the returned maximum -/

theorem search_loop_mono {n : Int} (fuel k : Nat) {c : Search} {r : Outcome}
    (h : search_loop n fuel c = r) (hr : r ≠ Outcome.out_of_fuel) :
    search_loop n (fuel + k) c = r := by
  induction fuel generalizing c with
  | zero =>
    simp only [search_loop] at h
    by_cases hs : c.stack = []
    · simp only [hs, if_true] at h
      cases k with
      | zero => simp [search_loop, hs, h]
      | succ k => simp [search_loop, hs, h]
    · simp only [hs, if_false] at h
      exact absurd h.symm hr
  | succ fuel ih =>
    rw [Nat.add_right_comm]
    simp only [search_loop] at h ⊢
    by_cases hs : c.stack = []
    · simpa only [hs, if_true] using h
    · simp only [hs, if_false] at h ⊢
      cases hb : loop_body n c with
      | none => simpa only [hb] using h
      | some c' =>
        simp only [hb] at h ⊢
        exact ih h

theorem foldl_max_ge (l : List Int) (a : Int) :
    a ≤ l.foldl max a ∧ ∀ d ∈ l, d ≤ l.foldl max a := by
  induction l generalizing a with
  | nil => simp
  | cons x xs ih =>
    simp only [List.foldl_cons]
    obtain ⟨h1, h2⟩ := ih (max a x)
    refine ⟨le_trans (le_max_left a x) h1, ?_⟩
    intro d hd
    rcases List.mem_cons.mp hd with rfl | hd
    · exact le_trans (le_max_right a d) h1
    · exact h2 d hd

theorem foldl_max_mem (l : List Int) (a : Int) : l.foldl max a = a ∨ l.foldl max a ∈ l := by
  induction l generalizing a with
  | nil => simp
  | cons x xs ih =>
    simp only [List.foldl_cons]
    rcases ih (max a x) with h | h
    · rcases max_choice a x with hm | hm
      · left; rw [h, hm]
      · right; rw [h, hm]; exact List.mem_cons_self _ _
    · right; exact List.mem_cons_of_mem _ h

theorem search_loop_returned {n : Int} (fuel : Nat) {c : Search} {v : Int}
    (h : search_loop n fuel c = Outcome.returned v) :
    v = (goal_depths n fuel c).foldl max c.max_moves := by
  induction fuel generalizing c with
  | zero =>
    simp only [search_loop] at h
    by_cases hs : c.stack = []
    · simp only [hs, if_true, Outcome.returned.injEq] at h
      simp [goal_depths, h]
    · simp [hs] at h
  | succ fuel ih =>
    simp only [search_loop] at h
    cases hs : c.stack with
    | nil =>
      simp only [hs, if_true, Outcome.returned.injEq] at h
      simp [goal_depths, hs, h]
    | cons current rest =>
      have hne : c.stack ≠ [] := by simp [hs]
      simp only [hne, if_false] at h
      cases hb : loop_body n c with
      | none => simp [hb] at h
      | some c' =>
        simp only [hb] at h
        have hv := ih h
        rcases loop_body_cases hs hb with ⟨hg, he⟩ | ⟨hg, nexts, _, he⟩
        · simp only [goal_depths, hs, hb, hg, if_true, List.foldl_cons]
          rw [hv, he]
        · simp only [goal_depths, hs, hb, hg, Bool.false_eq_true, if_false]
          rw [hv, he]

theorem goal_depths_nonneg {n : Int} (fuel : Nat) {c : Search} (hr : Reachable n c) :
    ∀ d ∈ goal_depths n fuel c, 0 ≤ d := by
  induction fuel generalizing c with
  | zero => simp [goal_depths]
  | succ fuel ih =>
    cases hs : c.stack with
    | nil => simp [goal_depths, hs]
    | cons current rest =>
      have hne : c.stack ≠ [] := by simp [hs]
      cases hb : loop_body n c with
      | none => simp [goal_depths, hs, hb]
      | some c' =>
        have hr' : Reachable n c' := Reachable.step hr hne hb
        have hcur : 0 ≤ current.total_moves :=
          reachable_total_moves_nonneg hr current (by rw [hs]; exact List.mem_cons_self _ _)
        intro d hd
        simp only [goal_depths, hs, hb] at hd
        split at hd
        · rcases List.mem_cons.mp hd with rfl | hd
          · exact hcur
          · exact ih hr' d hd
        · exact ih hr' d hd

/-! ## Positions -/

theorem reachable_position_in_range {n : Int} (hn : 2 ≤ n) {c : Search} (hr : Reachable n c) :
    ∀ s ∈ c.stack, s.bounded n ∧ 0 ≤ s.current_pos ∧ s.current_pos < n := by
  apply reachable_stack_inv (fun s => s.bounded n ∧ 0 ≤ s.current_pos ∧ s.current_pos < n) _ _ hr
  · exact ⟨initial_bounded (by omega), by simp [State.initial], by simp [State.initial]; omega⟩
  · intro s nexts hs hgen t ht
    obtain ⟨_, _, _, hp, hb⟩ := next_state_props hgen ht
    obtain ⟨hsb, h0, h1⟩ := hs
    refine ⟨hb (by omega) hsb, ?_⟩
    unfold next_positions at hp
    split_ifs at hp with hc1 hc2
    · simp only [List.mem_singleton] at hp; omega
    · simp only [List.mem_singleton] at hp; omega
    · simp only [List.mem_cons, List.mem_singleton, List.not_mem_nil, or_false] at hp
      rcases hp with hp | hp <;> omega

theorem bump_isSome {n k : Int} {s : State} (h0 : 0 ≤ s.current_pos)
    (h1 : s.current_pos < s.magnitudes.length) : ∃ b, bump n s k = some b := by
  unfold bump
  simp [h0, h1]

theorem generate_next_states_isSome {n : Int} {s : State} (h0 : 0 ≤ s.current_pos)
    (h1 : s.current_pos < s.magnitudes.length) : ∃ nexts, generate_next_states n s = some nexts := by
  obtain ⟨b1, hb1⟩ := @bump_isSome n 1 s h0 h1
  obtain ⟨b2, hb2⟩ := @bump_isSome n 2 s h0 h1
  unfold generate_next_states try_operation
  simp only [if_true, hb1, hb2, show ¬ ((2 : Int) = 1) by decide, if_false]
  split_ifs
  · exact ⟨_, rfl⟩
  · exact ⟨_, rfl⟩

/-- For `n ≥ 2` no iteration of the loop reads a slot outside the vector. -/
theorem loop_body_isSome {n : Int} (hn : 2 ≤ n) {c : Search} (hr : Reachable n c) :
    ∃ c', loop_body n c = some c' := by
  unfold loop_body
  cases hs : c.stack with
  | nil => exact ⟨_, rfl⟩
  | cons current rest =>
    simp only
    split_ifs
    · exact ⟨_, rfl⟩
    · obtain ⟨⟨_, hlen, _⟩, h0, h1⟩ :=
        reachable_position_in_range hn hr current (by rw [hs]; exact List.mem_cons_self _ _)
      obtain ⟨nexts, hgen⟩ := @generate_next_states_isSome n current h0 (by omega)
      rw [hgen]
      exact ⟨_, rfl⟩

/-! ## Evaluated runs -/

theorem iterate_loop_empty (n : Int) (k : Nat) (c : Search) (h : c.stack = []) :
    iterate_loop n k c = some c := by
  cases k with
  | zero => rfl
  | succ k => simp [iterate_loop, h]

theorem iterate_loop_add (n : Int) (j k : Nat) (c : Search) :
    iterate_loop n (j + k) c = (iterate_loop n j c).bind (iterate_loop n k) := by
  induction j generalizing c with
  | zero => simp [iterate_loop]
  | succ j ih =>
    rw [Nat.add_right_comm]
    by_cases hs : c.stack = []
    · simp [iterate_loop, hs, iterate_loop_empty n k c hs]
    · simp only [iterate_loop, hs, if_false]
      cases hb : loop_body n c with
      | none => simp
      | some c' => simpa using ih c'

theorem search_loop_eq_iterate (n : Int) (fuel : Nat) (c : Search) :
    search_loop n fuel c =
      match iterate_loop n fuel c with
      | none => Outcome.out_of_range
      | some c' => if c'.stack = [] then Outcome.returned c'.max_moves else Outcome.out_of_fuel := by
  induction fuel generalizing c with
  | zero => simp [search_loop, iterate_loop]
  | succ fuel ih =>
    by_cases hs : c.stack = []
    · simp [search_loop, iterate_loop, hs]
    · simp only [search_loop, iterate_loop, hs, if_false]
      cases hb : loop_body n c with
      | none => simp
      | some c' => simpa using ih c'

theorem run_two_to_50 : iterate_loop 2 50 (Search.start 2) = some run_two_50 := by
  decide!

theorem run_two_to_100 : iterate_loop 2 50 run_two_50 = some run_two_100 := by
  decide!

theorem run_two_to_150 : iterate_loop 2 50 run_two_100 = some run_two_150 := by
  decide!

theorem run_two_to_206 : iterate_loop 2 56 run_two_150 = some run_two_206 := by
  decide!

theorem run_two_to_256 : iterate_loop 2 50 run_two_206 = some run_two_256 := by
  decide!

theorem run_two_to_306 : iterate_loop 2 50 run_two_256 = some run_two_306 := by
  decide!

theorem run_two_to_358 : search_loop 2 52 run_two_306 = Outcome.returned 131 := by
  decide!

theorem iterate_loop_chain (n : Int) (j k m : Nat) (hm : j + k = m) {c c' : Search}
    (h : iterate_loop n j c = some c') : iterate_loop n m c = iterate_loop n k c' := by
  subst hm
  rw [iterate_loop_add, h]
  rfl

theorem search_loop_chain (n : Int) (j k m : Nat) (hm : j + k = m) {c c' : Search}
    (h : iterate_loop n j c = some c') : search_loop n m c = search_loop n k c' := by
  rw [search_loop_eq_iterate, search_loop_eq_iterate, iterate_loop_chain n j k m hm h]

/-- A popped state that is not a goal is expanded: its successors are run
through the test of the `for` loop. -/
theorem loop_body_expand {n : Int} {c : Search} {s : State} {rest nexts : List State}
    (hs : c.stack = s :: rest) (hg : s.is_goal = false)
    (hgen : generate_next_states n s = some nexts) :
    loop_body n c = some
      { stack := (nexts.foldl offer (c.best, rest)).2
        best := (nexts.foldl offer (c.best, rest)).1
        max_moves := c.max_moves
        states_explored := c.states_explored + 1 } := by
  unfold loop_body
  rw [hs]
  simp only [hg, Bool.false_eq_true, if_false, hgen]

/-- The run for `n = 2` reaches the checkpoint `run_two_206` after 206 pops. -/
theorem run_two_206_eval : iterate_loop 2 206 (Search.start 2) = some run_two_206 :=
  have h100 : iterate_loop 2 100 (Search.start 2) = some run_two_100 :=
    (iterate_loop_chain 2 50 50 100 rfl run_two_to_50).trans run_two_to_100
  have h150 : iterate_loop 2 150 (Search.start 2) = some run_two_150 :=
    (iterate_loop_chain 2 100 50 150 rfl h100).trans run_two_to_150
  (iterate_loop_chain 2 150 56 206 rfl h150).trans run_two_to_206

/-- The run for `n = 2`: the frontier empties at the 358th pop with
`max_moves = 131`. -/
theorem compute_L_two_eval : compute_L 2 358 = Outcome.returned 131 :=
  have h256 : iterate_loop 2 256 (Search.start 2) = some run_two_256 :=
    (iterate_loop_chain 2 206 50 256 rfl run_two_206_eval).trans run_two_to_256
  have h306 : iterate_loop 2 306 (Search.start 2) = some run_two_306 :=
    (iterate_loop_chain 2 256 50 306 rfl h256).trans run_two_to_306
  (search_loop_chain 2 306 52 358 rfl h306).trans run_two_to_358

/-- The run for `n = 1`: the second pop reads `magnitudes[1]` of a vector of
size 1. -/
theorem compute_L_one_eval : compute_L 1 2 = Outcome.out_of_range := by
  decide

theorem compute_L_one_never_returns (fuel : Nat) (v : Int) :
    compute_L 1 fuel ≠ Outcome.returned v := by
  intro h
  rcases Nat.lt_or_ge fuel 2 with hlt | hge
  · have h2 : compute_L 1 (fuel + (2 - fuel)) = Outcome.returned v :=
      search_loop_mono fuel (2 - fuel) h (by simp)
    have he : fuel + (2 - fuel) = 2 := by omega
    rw [he, compute_L_one_eval] at h2
    exact absurd h2 (by simp)
  · have h2 : compute_L 1 (2 + (fuel - 2)) = Outcome.out_of_range :=
      search_loop_mono 2 (fuel - 2) compute_L_one_eval (by simp)
    have he : 2 + (fuel - 2) = fuel := by omega
    rw [he, h] at h2
    exact absurd h2 (by simp)

/-! ## The claims -/

/-- C1: in the search loop of `compute_L`, for every map, frontier and
candidate `C`, `C` is pushed and the entry for its key is set to
`C.total_moves` exactly when the map has no entry for the key or records a
strictly smaller depth; when the recorded depth is at least `C.total_moves`,
map and frontier are left unchanged. -/
theorem offer_iff_absent_or_shallower (best : BestMap) (stack : List State) (C : State) :
    (((offer (best, stack) C).2 = C :: stack ∧
        (offer (best, stack) C).1 = best.assign C C.total_moves ∧
        (offer (best, stack) C).1.find C = some C.total_moves) ↔
      (best.find C = none ∨ ∃ d, best.find C = some d ∧ d < C.total_moves)) ∧
    (∀ d, best.find C = some d → C.total_moves ≤ d → offer (best, stack) C = (best, stack)) := by
  refine ⟨⟨?_, ?_⟩, ?_⟩
  · rintro ⟨hpush, _, _⟩
    rcases offer_cases best stack C with ⟨hc, _⟩ | ⟨_, he⟩
    · exact hc
    · rw [he] at hpush
      exact absurd hpush.symm (List.cons_ne_self C stack)
  · intro hc
    rw [offer_of_pass best stack C hc]
    exact ⟨rfl, rfl, BestMap.find_assign_self best C _⟩
  · intro d hd hle
    exact offer_of_fail best stack C d hd hle

/-- C2, as the claim states it, fails: in the run for `n = 2` the state popped
at the 207th iteration has `total_moves = 121` while the map records 129 for
its key; it is not a goal, and the loop expands it (its two successors are
generated and run through the admission test). -/
theorem superseded_arrival_expanded :
    ∃ c rest, Reachable 2 c ∧
      c.stack = State.mk [0, 0] 1 5 121 0 2 :: rest ∧
      c.best.find (State.mk [0, 0] 1 5 121 0 2) = some 129 ∧
      (State.mk [0, 0] 1 5 121 0 2).is_goal = false ∧
      generate_next_states 2 (State.mk [0, 0] 1 5 121 0 2) =
        some [State.mk [0, 1] 0 6 122 0 2, State.mk [1, 1] 0 0 122 0 2] ∧
      loop_body 2 c = some
        { stack := ([State.mk [0, 1] 0 6 122 0 2, State.mk [1, 1] 0 0 122 0 2].foldl offer
            (c.best, rest)).2
          best := ([State.mk [0, 1] 0 6 122 0 2, State.mk [1, 1] 0 0 122 0 2].foldl offer
            (c.best, rest)).1
          max_moves := c.max_moves
          states_explored := c.states_explored + 1 } := by
  have hgoal : (State.mk [0, 0] 1 5 121 0 2).is_goal = false := by decide
  have hgen : generate_next_states 2 (State.mk [0, 0] 1 5 121 0 2) =
      some [State.mk [0, 1] 0 6 122 0 2, State.mk [1, 1] 0 0 122 0 2] := by decide
  have hs : run_two_206.stack = State.mk [0, 0] 1 5 121 0 2 :: run_two_206.stack.tail := rfl
  exact ⟨run_two_206, run_two_206.stack.tail,
    iterate_loop_reachable 206 Reachable.start run_two_206_eval, hs, by decide!, hgoal, hgen,
    loop_body_expand hs hgoal hgen⟩

/-- C2, amended: every state popped in a run of `compute_L` has a map entry for
its key that is at least its `total_moves`; the loop does not consult the map
when it pops, so a popped state that is not a goal is expanded whatever depth
the map records for its key (a superseded arrival still on the frontier is
expanded too). -/
theorem popped_state_covered_and_expanded (n : Int) (c : Search) (s : State)
    (rest : List State) (hr : Reachable n c) (hs : c.stack = s :: rest) :
    (∃ d, c.best.find s = some d ∧ s.total_moves ≤ d) ∧
    (s.is_goal = false →
      loop_body n c = (generate_next_states n s).map (fun nexts =>
        { stack := (nexts.foldl offer (c.best, rest)).2
          best := (nexts.foldl offer (c.best, rest)).1
          max_moves := c.max_moves
          states_explored := c.states_explored + 1 })) := by
  refine ⟨reachable_covered hr s (by rw [hs]; exact List.mem_cons_self _ _), ?_⟩
  intro hg
  unfold loop_body
  rw [hs]
  simp only [hg, Bool.false_eq_true, if_false]
  cases generate_next_states n s with
  | none => rfl
  | some nexts => rfl

theorem popped_state_covered_and_expanded_witness :
    (∃ d, (Search.start 2).best.find (State.initial 2) = some d ∧
        (State.initial 2).total_moves ≤ d) ∧
    ((State.initial 2).is_goal = false →
      loop_body 2 (Search.start 2) = (generate_next_states 2 (State.initial 2)).map
        (fun nexts =>
          { stack := (nexts.foldl offer ((Search.start 2).best, [])).2
            best := (nexts.foldl offer ((Search.start 2).best, [])).1
            max_moves := (Search.start 2).max_moves
            states_explored := (Search.start 2).states_explored + 1 })) :=
  popped_state_covered_and_expanded 2 (Search.start 2) (State.initial 2) []
    Reachable.start rfl

/-- C3: along every run of the loop the map never loses a key and no recorded
depth decreases; after a candidate has been processed the entry for its key is
at least its depth; every state on the frontier has an entry for its key at
least its `total_moves`; and when a key recorded at `d1` arrives at a depth
`d2 > d1`, the map reads `d2` afterwards. -/
theorem best_map_monotone_and_covering (n : Int) :
    (∀ c c', loop_body n c = some c' → c.best.le c'.best) ∧
    (∀ k c c', iterate_loop n k c = some c' → c.best.le c'.best) ∧
    (∀ (best : BestMap) (stack : List State) (C : State),
      best.le (offer (best, stack) C).1 ∧
      ∃ d, (offer (best, stack) C).1.find C = some d ∧ C.total_moves ≤ d) ∧
    (∀ c, Reachable n c → frontier_covered c.best c.stack) ∧
    (∀ (best : BestMap) (stack : List State) (C : State) (d1 : Int),
      best.find C = some d1 → d1 < C.total_moves →
      (offer (best, stack) C).1.find C = some C.total_moves) := by
  refine ⟨fun c c' h => loop_body_le h, fun k c c' h => iterate_loop_le k h,
    fun best stack C => ⟨offer_le best stack C, offer_records best stack C⟩,
    fun c hr => reachable_covered hr, ?_⟩
  intro best stack C d1 h1 hlt
  rw [offer_of_pass best stack C (Or.inr ⟨d1, h1, hlt⟩)]
  exact BestMap.find_assign_self best C _

/-- C4: for every `n ≥ 1`, every state on the frontier of a run of `compute_L`
(the initial state and every successor pushed) satisfies `valid_ordering()` and
has every magnitude in `[0, n]`. -/
theorem frontier_states_valid_and_in_range (n : Int) (hn : 1 ≤ n) (c : Search)
    (hr : Reachable n c) :
    ∀ s ∈ c.stack, s.valid_ordering = true ∧ ∀ mag ∈ s.magnitudes, 0 ≤ mag ∧ mag ≤ n := by
  intro s hs
  obtain ⟨hb, hv⟩ := reachable_bounded_valid (by omega) hr s hs
  exact ⟨hv, hb.2.2⟩

theorem frontier_states_valid_and_in_range_witness :
    (1 : Int) ≤ 2 ∧ Reachable 2 (Search.start 2) ∧
    ∀ s ∈ (Search.start 2).stack,
      s.valid_ordering = true ∧ ∀ mag ∈ s.magnitudes, 0 ≤ mag ∧ mag ≤ 2 :=
  ⟨by decide, Reachable.start,
    frontier_states_valid_and_in_range 2 (by decide) (Search.start 2) Reachable.start⟩

/-- C5 fails on the code at `n = 1`: the first iteration of the loop pushes a
state with `current_pos = 1` on a vector of one magnitude, and the next
iteration reads `magnitudes[1]`, outside the vector; every run with at least
two iterations ends there. -/
theorem position_leaves_range_for_one :
    ∃ c s, loop_body 1 (Search.start 1) = some c ∧ Reachable 1 c ∧ c.stack = [s] ∧
      s = State.mk [0] 1 1 1 0 1 ∧ s.magnitudes.length = 1 ∧ ¬ s.current_pos < 1 ∧
      bump 1 s 1 = none ∧ loop_body 1 c = none ∧
      ∀ fuel, 2 ≤ fuel → compute_L 1 fuel = Outcome.out_of_range := by
  have hb : loop_body 1 (Search.start 1) = some
      { stack := [State.mk [0] 1 1 1 0 1]
        best := [(State.initial 1, 0), (State.mk [0] 1 1 1 0 1, 1)]
        max_moves := 0
        states_explored := 1 } := by decide
  refine ⟨_, State.mk [0] 1 1 1 0 1, hb, Reachable.step Reachable.start (by decide) hb, rfl, rfl,
    rfl, by decide, by decide, by decide, ?_⟩
  intro fuel hf
  have h2 : compute_L 1 (2 + (fuel - 2)) = Outcome.out_of_range :=
    search_loop_mono 2 (fuel - 2) compute_L_one_eval (by simp)
  have he : 2 + (fuel - 2) = fuel := by omega
  rw [he] at h2
  exact h2

/-- C6, as the claim states it, fails: for `n = 1` the only successor of the
initial state has magnitudes `[0]` and is not a goal, and no run of `compute_L`
returns a value. -/
theorem goal_not_reached_for_one :
    generate_next_states 1 (State.initial 1) = some [State.mk [0] 1 1 1 0 1] ∧
    (State.mk [0] 1 1 1 0 1).is_goal = false ∧
    ∀ fuel v, compute_L 1 fuel ≠ Outcome.returned v :=
  ⟨by decide, by decide, compute_L_one_never_returns⟩

/-- C6, amended: for `n = 1` the small move on the initial state yields
magnitudes `[1]`, which satisfy the goal test, but the movement that completes
the move raises `total_moves` to 1, where the flip fires and turns the
magnitudes back into `[0]`; the one state the first iteration pushes is not a
goal and the running maximum is still 0. -/
theorem first_move_for_one_flips_back :
    bump 1 (State.initial 1) 1 = some (State.mk [1] 0 0 0 0 1) ∧
    (State.mk [1] 0 0 0 0 1).is_goal = true ∧
    moved_state 1 (State.mk [1] 0 1 0 0 1) 1 = State.mk [0] 1 1 1 0 1 ∧
    generate_next_states 1 (State.initial 1) = some [State.mk [0] 1 1 1 0 1] ∧
    (State.mk [0] 1 1 1 0 1).is_goal = false ∧
    (loop_body 1 (Search.start 1)).map (fun c => (c.stack, c.max_moves)) =
      some ([State.mk [0] 1 1 1 0 1], 0) :=
  ⟨by decide, by decide, by decide, by decide, by decide, by decide⟩

/-- C7 fails on the code: the run of `compute_L` for `n = 2` ends with an empty
frontier at the 358th pop and returns 131; no amount of fuel makes it return
628. -/
theorem compute_L_two_returns_131 :
    compute_L 2 358 = Outcome.returned 131 ∧
    (∀ fuel, 358 ≤ fuel → compute_L 2 fuel = Outcome.returned 131) ∧
    ∀ fuel, compute_L 2 fuel ≠ Outcome.returned 628 := by
  have hge : ∀ fuel, 358 ≤ fuel → compute_L 2 fuel = Outcome.returned 131 := by
    intro fuel hf
    have h2 : compute_L 2 (358 + (fuel - 358)) = Outcome.returned 131 :=
      search_loop_mono 358 (fuel - 358) compute_L_two_eval (by simp)
    have he : 358 + (fuel - 358) = fuel := by omega
    rw [he] at h2
    exact h2
  refine ⟨compute_L_two_eval, hge, ?_⟩
  intro fuel h
  rcases Nat.lt_or_ge fuel 358 with hlt | hf
  · have h2 : compute_L 2 (fuel + (358 - fuel)) = Outcome.returned 628 :=
      search_loop_mono fuel (358 - fuel) h (by simp)
    have he : fuel + (358 - fuel) = 358 := by omega
    rw [he, compute_L_two_eval] at h2
    exact absurd h2 (by decide)
  · rw [hge fuel hf] at h
    exact absurd h (by decide)

/-- C8: two states with the same magnitudes, `current_pos`, `moves_since_plus2`
and `injection_cycle` are not ordered by `operator<` either way, whatever their
`total_moves`; they are one key of the map (a lookup of one finds what was
recorded under the other). -/
theorem same_fields_same_key (a b : State) (hm : a.magnitudes = b.magnitudes)
    (hp : a.current_pos = b.current_pos) (hs : a.moves_since_plus2 = b.moves_since_plus2)
    (hi : a.injection_cycle = b.injection_cycle) :
    a.lt b = false ∧ b.lt a = false ∧ keyEquiv a b = true ∧
    ∀ (best : BestMap) (d : Int),
      best.find a = best.find b ∧ (best.assign a d).find b = some d := by
  have hk : a.key = b.key := by simp [State.key, hm, hp, hs, hi]
  refine ⟨State.lt_of_key_eq a b hk, State.lt_of_key_eq b a hk.symm,
    (keyEquiv_iff a b).mpr hk, ?_⟩
  intro best d
  refine ⟨BestMap.find_congr best a b hk, ?_⟩
  rw [BestMap.find_assign]
  simp [hk]

theorem same_fields_same_key_witness :
    (State.mk [1, 0] 0 1 5 0 2).lt (State.mk [1, 0] 0 1 9 0 2) = false ∧
    (State.mk [1, 0] 0 1 9 0 2).lt (State.mk [1, 0] 0 1 5 0 2) = false ∧
    keyEquiv (State.mk [1, 0] 0 1 5 0 2) (State.mk [1, 0] 0 1 9 0 2) = true ∧
    ∀ (best : BestMap) (d : Int),
      best.find (State.mk [1, 0] 0 1 5 0 2) = best.find (State.mk [1, 0] 0 1 9 0 2) ∧
      (best.assign (State.mk [1, 0] 0 1 5 0 2) d).find (State.mk [1, 0] 0 1 9 0 2) = some d :=
  same_fields_same_key (State.mk [1, 0] 0 1 5 0 2) (State.mk [1, 0] 0 1 9 0 2) rfl rfl rfl rfl

/-- C9: `State::operator<` is a strict total order on structural keys: it is
irreflexive and transitive, for any two states exactly one of `a < b`, `b < a`
and equality of the four key fields holds, and it is the lexicographic order
over `magnitudes`, `current_pos`, `moves_since_plus2`, `injection_cycle`. -/
theorem State.lt_strict_total_lexicographic :
    (∀ a : State, a.lt a = false) ∧
    (∀ a b c : State, a.lt b = true → b.lt c = true → a.lt c = true) ∧
    (∀ a b : State,
      (a.lt b = true ∧ b.lt a = false ∧ a.key ≠ b.key) ∨
      (a.lt b = false ∧ b.lt a = true ∧ a.key ≠ b.key) ∨
      (a.lt b = false ∧ b.lt a = false ∧ a.key = b.key)) ∧
    (∀ a b : State, a.key = b.key ↔
      a.magnitudes = b.magnitudes ∧ a.current_pos = b.current_pos ∧
      a.moves_since_plus2 = b.moves_since_plus2 ∧ a.injection_cycle = b.injection_cycle) ∧
    (∀ a b : State, a.lt b = true ↔ specLexLt a b) := by
  refine ⟨State.lt_irrefl, State.lt_trans, ?_, ?_, State.lt_iff_spec⟩
  · intro a b
    by_cases hk : a.key = b.key
    · exact Or.inr (Or.inr ⟨State.lt_of_key_eq a b hk, State.lt_of_key_eq b a hk.symm, hk⟩)
    · rcases State.lt_total a b hk with h | h
      · exact Or.inl ⟨h, State.lt_asymm a b h, hk⟩
      · exact Or.inr (Or.inl ⟨State.lt_asymm b a h, h, hk⟩)
  · intro a b
    simp [State.key]

/-- C10: popping a goal state pushes nothing, leaves the map unchanged and sets
the running maximum to the larger of its old value and the state's
`total_moves`; popping any other state leaves the running maximum unchanged;
so when the frontier empties the value returned is the largest `total_moves`
among the goal states popped, 0 when none was popped, and never negative. -/
theorem goal_pop_records_maximum (n : Int) :
    (∀ (c : Search) (current : State) (rest : List State),
      c.stack = current :: rest → current.is_goal = true →
      loop_body n c = some
        { stack := rest
          best := c.best
          max_moves := max c.max_moves current.total_moves
          states_explored := c.states_explored + 1 }) ∧
    (∀ (c c' : Search) (current : State) (rest : List State),
      c.stack = current :: rest → current.is_goal = false → loop_body n c = some c' →
      c'.max_moves = c.max_moves) ∧
    (∀ (fuel : Nat) (v : Int), compute_L n fuel = Outcome.returned v →
      v = (goal_depths n fuel (Search.start n)).foldl max 0 ∧ 0 ≤ v ∧
      (goal_depths n fuel (Search.start n) = [] → v = 0) ∧
      (goal_depths n fuel (Search.start n) ≠ [] →
        v ∈ goal_depths n fuel (Search.start n) ∧
        ∀ d ∈ goal_depths n fuel (Search.start n), d ≤ v)) := by
  refine ⟨?_, ?_, ?_⟩
  · intro c current rest hs hg
    unfold loop_body
    rw [hs]
    simp only [hg, if_true]
  · intro c c' current rest hs hg hb
    rcases loop_body_cases hs hb with ⟨hg', _⟩ | ⟨_, nexts, _, he⟩
    · rw [hg] at hg'
      exact absurd hg' (by simp)
    · rw [he]
  · intro fuel v h
    have hv : v = (goal_depths n fuel (Search.start n)).foldl max 0 :=
      search_loop_returned fuel h
    obtain ⟨h0, hall⟩ := foldl_max_ge (goal_depths n fuel (Search.start n)) 0
    rw [← hv] at h0 hall
    refine ⟨hv, h0, ?_, ?_⟩
    · intro hnil
      rw [hv, hnil]
      rfl
    · intro hne
      refine ⟨?_, hall⟩
      rcases foldl_max_mem (goal_depths n fuel (Search.start n)) 0 with hm | hm
      · obtain ⟨d, hd⟩ := List.exists_mem_of_ne_nil _ hne
        have hd0 : 0 ≤ d := goal_depths_nonneg fuel Reachable.start d hd
        have hdv : d ≤ v := hall d hd
        rw [← hv] at hm
        have : d = v := by omega
        rw [← this]
        exact hd
      · rw [← hv] at hm
        exact hm

theorem goal_pop_records_maximum_witness :
    compute_L 2 358 = Outcome.returned 131 ∧
    (131 : Int) = (goal_depths 2 358 (Search.start 2)).foldl max 0 ∧ (0 : Int) ≤ 131 :=
  ⟨compute_L_two_eval,
    ((goal_pop_records_maximum 2).2.2 358 131 compute_L_two_eval).1,
    ((goal_pop_records_maximum 2).2.2 358 131 compute_L_two_eval).2.1⟩

/-! ## Periodic effects -/

theorem apply_periodic_effects_eq (n : Int) (s : State) :
    apply_periodic_effects n s = periodic_injection n (periodic_flip s) := rfl

theorem periodic_flip_total_moves (s : State) : (periodic_flip s).total_moves = s.total_moves := by
  unfold periodic_flip State.apply_flip
  dsimp only
  split_ifs <;> rfl

theorem flip_period_eq_min (t : Int) :
    (if 4 + t.tdiv 50000 > 100 then 100 else 4 + t.tdiv 50000) = min 100 (4 + t.tdiv 50000) := by
  split_ifs with h <;> omega

/-- C11: for a state with `total_moves = t ≥ 0`, `apply_periodic_effects`
applies the flip (every magnitude `m` becomes `n - m`) exactly when
`t mod min(100, 4 + t div 50000) = 1`; for `0 ≤ t < 50000` that is exactly when
`t` is congruent to 1 modulo 4. -/
theorem flip_fires_iff (n : Int) (s : State) (ht : 0 ≤ s.total_moves) :
    apply_periodic_effects n s =
      periodic_injection n
        (if s.total_moves % min 100 (4 + s.total_moves / 50000) = 1 then s.apply_flip else s) ∧
    s.apply_flip = { s with magnitudes := s.magnitudes.map (fun mag => s.n - mag) } ∧
    (s.total_moves < 50000 →
      apply_periodic_effects n s =
        periodic_injection n (if s.total_moves % 4 = 1 then s.apply_flip else s)) := by
  have hdiv : s.total_moves.tdiv 50000 = s.total_moves / 50000 :=
    Int.tdiv_eq_ediv ht (by decide)
  have hper : 0 ≤ min 100 (4 + s.total_moves / 50000) := by
    have : 0 ≤ s.total_moves / 50000 := Int.ediv_nonneg ht (by decide)
    omega
  have hflip : periodic_flip s =
      if s.total_moves % min 100 (4 + s.total_moves / 50000) = 1 then s.apply_flip else s := by
    unfold periodic_flip
    dsimp only
    rw [flip_period_eq_min, hdiv, Int.tmod_eq_emod ht hper]
  refine ⟨by rw [apply_periodic_effects_eq, hflip], rfl, ?_⟩
  intro hlt
  have h0 : s.total_moves / 50000 = 0 := Int.ediv_eq_zero_of_lt ht hlt
  rw [apply_periodic_effects_eq, hflip, h0]
  rfl

theorem flip_fires_iff_witness :
    apply_periodic_effects 2 (State.mk [2, 0] 1 1 5 0 2) =
      periodic_injection 2
        (if (5 : Int) % min 100 (4 + 5 / 50000) = 1 then (State.mk [2, 0] 1 1 5 0 2).apply_flip
          else State.mk [2, 0] 1 1 5 0 2) ∧
    (State.mk [2, 0] 1 1 5 0 2).apply_flip =
      { State.mk [2, 0] 1 1 5 0 2 with magnitudes := [2, 0].map (fun mag => 2 - mag) } ∧
    ((5 : Int) < 50000 →
      apply_periodic_effects 2 (State.mk [2, 0] 1 1 5 0 2) =
        periodic_injection 2
          (if (5 : Int) % 4 = 1 then (State.mk [2, 0] 1 1 5 0 2).apply_flip
            else State.mk [2, 0] 1 1 5 0 2)) :=
  flip_fires_iff 2 (State.mk [2, 0] 1 1 5 0 2) (by decide)

/-- C12: `apply_periodic_effects` performs the injection exactly when
`total_moves = t > 0` and `t mod 131 = 0`: then every magnitude, as the flip
step left it, becomes `min(n, m + 1)` and `injection_cycle` grows by 1;
otherwise the state is as the flip step left it.  The test does not depend on
the flip: at `t = 393` both fire. -/
theorem injection_fires_iff (n : Int) (s : State) :
    (0 < s.total_moves ∧ s.total_moves % 131 = 0 →
      apply_periodic_effects n s =
        { periodic_flip s with
          magnitudes := (periodic_flip s).magnitudes.map (fun mag => min n (mag + 1))
          injection_cycle := s.injection_cycle + 1 }) ∧
    (¬ (0 < s.total_moves ∧ s.total_moves % 131 = 0) →
      apply_periodic_effects n s = periodic_flip s) ∧
    (s.total_moves = 393 →
      apply_periodic_effects n s =
        { s with
          magnitudes := (s.magnitudes.map (fun mag => s.n - mag)).map (fun mag => min n (mag + 1))
          injection_cycle := s.injection_cycle + 1 }) := by
  have hic : (periodic_flip s).injection_cycle = s.injection_cycle := by
    unfold periodic_flip State.apply_flip
    dsimp only
    split_ifs <;> rfl
  have hmod : 0 < s.total_moves → s.total_moves.tmod 131 = s.total_moves % 131 := fun h =>
    Int.tmod_eq_emod (le_of_lt h) (by decide)
  have hyes : 0 < s.total_moves ∧ s.total_moves % 131 = 0 →
      apply_periodic_effects n s =
        { periodic_flip s with
          magnitudes := (periodic_flip s).magnitudes.map (fun mag => min n (mag + 1))
          injection_cycle := s.injection_cycle + 1 } := by
    rintro ⟨hpos, hm⟩
    have hc : 0 < (periodic_flip s).total_moves ∧ (periodic_flip s).total_moves.tmod 131 = 0 := by
      rw [periodic_flip_total_moves, hmod hpos]
      exact ⟨hpos, hm⟩
    rw [apply_periodic_effects_eq]
    unfold periodic_injection
    rw [if_pos hc, hic]
  refine ⟨hyes, ?_, ?_⟩
  · intro hno
    have hc : ¬ (0 < (periodic_flip s).total_moves ∧
        (periodic_flip s).total_moves.tmod 131 = 0) := by
      rw [periodic_flip_total_moves]
      rintro ⟨hpos, hm⟩
      exact hno ⟨hpos, by rw [← hmod hpos]; exact hm⟩
    rw [apply_periodic_effects_eq]
    unfold periodic_injection
    rw [if_neg hc]
  · intro ht
    have hpf : periodic_flip s = s.apply_flip := by
      unfold periodic_flip
      rw [ht]
      rfl
    rw [hyes ⟨by rw [ht]; decide, by rw [ht]; decide⟩, hpf]
    rfl

theorem injection_fires_iff_witness :
    apply_periodic_effects 2 (State.mk [2, 0] 1 1 393 0 2) = State.mk [1, 2] 1 1 393 1 2 :=
  ((injection_fires_iff 2 (State.mk [2, 0] 1 1 393 0 2)).2.2 rfl).trans (by decide)

/-! ## Moves and movements -/

/-- C14: `generate_next_states` always attempts the small move and attempts the
large move exactly when `moves_since_plus2 ≥ 2`.  The small-move successors
come from the parent with `magnitudes[p]` replaced by `min(n, magnitudes[p] + 1)`
and carry `moves_since_plus2 + 1`; the large-move successors come from the
parent with `magnitudes[p]` replaced by `min(n, magnitudes[p] + 2)`, then the
trigger, and carry `moves_since_plus2 = 0`. -/
theorem generate_next_states_moves (n : Int) (s : State) (h0 : 0 ≤ s.current_pos)
    (h1 : s.current_pos < s.magnitudes.length) :
    generate_next_states n s = some
      (generate_movements n
          { s with
            magnitudes := s.magnitudes.set s.current_pos.toNat
              (min n (s.magnitudes.getD s.current_pos.toNat 0 + 1))
            moves_since_plus2 := s.moves_since_plus2 + 1 } ++
        if 2 ≤ s.moves_since_plus2 then
          generate_movements n
            { apply_trigger n
                { s with
                  magnitudes := s.magnitudes.set s.current_pos.toNat
                    (min n (s.magnitudes.getD s.current_pos.toNat 0 + 2)) } with
              moves_since_plus2 := 0 }
        else []) ∧
    (∀ (u t : State), u.moves_since_plus2 = s.moves_since_plus2 + 1 →
      t ∈ generate_movements n u → t.moves_since_plus2 = s.moves_since_plus2 + 1) ∧
    (∀ (u t : State), u.moves_since_plus2 = 0 →
      t ∈ generate_movements n u → t.moves_since_plus2 = 0) := by
  have hmsp : ∀ (u t : State), t ∈ generate_movements n u →
      t.moves_since_plus2 = u.moves_since_plus2 := by
    intro u t ht
    obtain ⟨_, p, _, rfl⟩ := mem_generate_movements ht
    exact (moved_state_fields n u p).2.2.1
  refine ⟨?_, fun u t hu ht => by rw [hmsp u t ht, hu], fun u t hu ht => by rw [hmsp u t ht, hu]⟩
  unfold generate_next_states try_operation bump
  simp only [if_true, h0, h1, and_self, show ¬ ((2 : Int) = 1) by decide, if_false]
  split_ifs
  · rfl
  · simp

theorem generate_next_states_moves_witness :
    generate_next_states 2 (State.mk [0, 1] 0 2 6 0 2) = some
      (generate_movements 2
          { State.mk [0, 1] 0 2 6 0 2 with
            magnitudes := [0, 1].set (0 : Int).toNat (min 2 ([0, 1].getD (0 : Int).toNat 0 + 1))
            moves_since_plus2 := 2 + 1 } ++
        if (2 : Int) ≤ 2 then
          generate_movements 2
            { apply_trigger 2
                { State.mk [0, 1] 0 2 6 0 2 with
                  magnitudes := [0, 1].set (0 : Int).toNat
                    (min 2 ([0, 1].getD (0 : Int).toNat 0 + 2)) } with
              moves_since_plus2 := 0 }
        else []) :=
  (generate_next_states_moves 2 (State.mk [0, 1] 0 2 6 0 2) (by decide) (by decide)).1

/-- C15: for `n ≥ 2` and a post-move state at position `p` with `0 ≤ p < n`,
`generate_movements` considers one candidate (to position 1) when `p = 0`, one
candidate (to `n - 2`) when `p = n - 1`, and two candidates (to `p - 1`, then
`p + 1`) otherwise; a candidate has `total_moves + 1` and the periodic effects
applied for that value; the states appended are the candidates that pass
`valid_ordering()`, in that order. -/
theorem generate_movements_candidates (n : Int) (s : State) (hn : 2 ≤ n) :
    (0 ≤ s.current_pos → s.current_pos < n →
      s.current_pos = 0 ∨ s.current_pos = n - 1 ∨ (0 < s.current_pos ∧ s.current_pos < n - 1)) ∧
    (s.current_pos = 0 →
      generate_movements n s = [moved_state n s 1].filter State.valid_ordering) ∧
    (s.current_pos = n - 1 →
      generate_movements n s = [moved_state n s (n - 2)].filter State.valid_ordering) ∧
    (0 < s.current_pos → s.current_pos < n - 1 →
      generate_movements n s =
        [moved_state n s (s.current_pos - 1), moved_state n s (s.current_pos + 1)].filter
          State.valid_ordering) ∧
    (∀ q : Int,
      moved_state n s q =
        apply_periodic_effects n
          { s with current_pos := q, total_moves := s.total_moves + 1 } ∧
      (moved_state n s q).total_moves = s.total_moves + 1 ∧
      (moved_state n s q).current_pos = q) := by
  refine ⟨?_, ?_, ?_, ?_, ?_⟩
  · intro h0 h1
    omega
  · intro hp
    unfold generate_movements next_positions
    simp [hp]
  · intro hp
    have hn1 : ¬ (n - 1 = 0) := by omega
    unfold generate_movements next_positions
    simp [hp, hn1]
  · intro hp hq
    have hne : s.current_pos ≠ 0 := by omega
    have hne2 : s.current_pos ≠ n - 1 := by omega
    unfold generate_movements next_positions
    simp [hne, hne2]
  · intro q
    exact ⟨rfl, (moved_state_fields n s q).1, (moved_state_fields n s q).2.1⟩

theorem generate_movements_candidates_witness :
    (2 : Int) ≤ 2 ∧
    ((0 : Int) = 0 →
      generate_movements 2 (State.mk [1, 0] 0 1 0 0 2) =
        [moved_state 2 (State.mk [1, 0] 0 1 0 0 2) 1].filter State.valid_ordering) ∧
    generate_movements 2 (State.mk [1, 0] 0 1 0 0 2) = [State.mk [1, 2] 1 1 1 0 2] :=
  ⟨by decide, (generate_movements_candidates 2 (State.mk [1, 0] 0 1 0 0 2) (by decide)).2.1,
    by decide⟩

/-! ## The ordering test -/

theorem validLoop_iff (prev : Int) (l : List Int) :
    validLoop prev l = true ↔
      ∀ i : Nat, i < l.length → 0 < l.getD i 0 → l.getD i 0 - 1 ≤ (prev :: l).getD i 0 := by
  induction l generalizing prev with
  | nil => simp [validLoop]
  | cons m rest ih =>
    unfold validLoop
    constructor
    · intro h i hi hpos
      split at h
      · exact absurd h (by simp)
      · rename_i hc
        cases i with
        | zero =>
          simp only [List.getD_cons_zero] at hpos ⊢
          by_contra hlt
          exact hc ⟨hpos, by omega⟩
        | succ j =>
          simp only [List.getD_cons_succ] at hpos ⊢
          exact (ih m).mp h j (by simpa using hi) hpos
    · intro h
      have h0 := h 0 (by simp)
      simp only [List.getD_cons_zero] at h0
      have hc : ¬ (0 < m ∧ prev < m - 1) := by
        rintro ⟨hm, hp⟩
        have := h0 hm
        omega
      rw [if_neg hc]
      apply (ih m).mpr
      intro j hj hpos
      have := h (j + 1) (by simpa using hj)
      simp only [List.getD_cons_succ] at this
      exact this hpos

/-- C16: for a state whose magnitudes have length `n`, `valid_ordering()` is
true exactly when for every index `i` with `1 ≤ i < n` and `magnitudes[i] > 0`
it holds that `magnitudes[i-1] ≥ magnitudes[i] - 1`. -/
theorem valid_ordering_iff (s : State) (hlen : (s.magnitudes.length : Int) = s.n) :
    s.valid_ordering = true ↔
      ∀ i : Nat, 1 ≤ i → (i : Int) < s.n → 0 < s.magnitudes.getD i 0 →
        s.magnitudes.getD (i - 1) 0 ≥ s.magnitudes.getD i 0 - 1 := by
  unfold State.valid_ordering
  cases hm : s.magnitudes with
  | nil =>
    rw [hm] at hlen
    simp only [List.length_nil, Nat.cast_zero] at hlen
    simp only [true_iff]
    intro i hi hlt
    omega
  | cons first rest =>
    rw [hm] at hlen
    simp only [List.length_cons, Nat.cast_add, Nat.cast_one] at hlen
    simp only
    rw [validLoop_iff]
    constructor
    · intro h i hi hlt hpos
      obtain ⟨j, rfl⟩ : ∃ j, i = j + 1 := ⟨i - 1, by omega⟩
      simp only [List.getD_cons_succ, Nat.add_sub_cancel] at hpos ⊢
      exact h j (by omega) hpos
    · intro h j hj hpos
      have := h (j + 1) (by omega) (by push_cast; omega)
      simp only [List.getD_cons_succ, Nat.add_sub_cancel] at this
      exact this hpos

theorem valid_ordering_iff_witness :
    (State.mk [1, 2, 0] 0 0 0 0 3).valid_ordering = true ↔
      ∀ i : Nat, 1 ≤ i → (i : Int) < 3 → 0 < [1, 2, 0].getD i (0 : Int) →
        [1, 2, 0].getD (i - 1) (0 : Int) ≥ [1, 2, 0].getD i 0 - 1 :=
  valid_ordering_iff (State.mk [1, 2, 0] 0 0 0 0 3) (by decide)

/-! ## The trigger -/

theorem foldl_min_le (l : List Int) (a : Int) :
    l.foldl min a ≤ a ∧ ∀ d ∈ l, l.foldl min a ≤ d := by
  induction l generalizing a with
  | nil => simp
  | cons x xs ih =>
    simp only [List.foldl_cons]
    obtain ⟨h1, h2⟩ := ih (min a x)
    refine ⟨le_trans h1 (min_le_left a x), ?_⟩
    intro d hd
    rcases List.mem_cons.mp hd with rfl | hd
    · exact le_trans h1 (min_le_right a d)
    · exact h2 d hd

theorem foldl_min_mem (l : List Int) (a : Int) : l.foldl min a = a ∨ l.foldl min a ∈ l := by
  induction l generalizing a with
  | nil => simp
  | cons x xs ih =>
    simp only [List.foldl_cons]
    rcases ih (min a x) with h | h
    · rcases min_choice a x with hm | hm
      · left; rw [h, hm]
      · right; rw [h, hm]; exact List.mem_cons_self _ _
    · right; exact List.mem_cons_of_mem _ h

/-- On a non-empty array with entries at least `-1`, `max_val` of
`apply_trigger` is the largest entry. -/
theorem max_val_spec (l : List Int) (hne : l ≠ []) (hl : ∀ x ∈ l, -1 ≤ x) :
    l.foldl max (-1) ∈ l ∧ (∀ x ∈ l, x ≤ l.foldl max (-1)) ∧
    l.max? = some (l.foldl max (-1)) := by
  obtain ⟨_, hub⟩ := foldl_max_ge l (-1)
  cases l with
  | nil => exact absurd rfl hne
  | cons a rest =>
    have ha : -1 ≤ a := hl a (List.mem_cons_self _ _)
    have hfold : (a :: rest).foldl max (-1) = rest.foldl max a := by
      simp only [List.foldl_cons]
      rw [max_eq_right ha]
    refine ⟨?_, hub, by rw [hfold]; rfl⟩
    rw [hfold]
    rcases foldl_max_mem rest a with h | h
    · rw [h]; exact List.mem_cons_self _ _
    · exact List.mem_cons_of_mem _ h

/-- On a non-empty array with entries at most `n + 1`, `min_val` of
`apply_trigger` is the smallest entry. -/
theorem min_val_spec (n : Int) (l : List Int) (hne : l ≠ []) (hl : ∀ x ∈ l, x ≤ n + 1) :
    l.foldl min (n + 1) ∈ l ∧ (∀ x ∈ l, l.foldl min (n + 1) ≤ x) ∧
    l.min? = some (l.foldl min (n + 1)) := by
  obtain ⟨_, hlb⟩ := foldl_min_le l (n + 1)
  cases l with
  | nil => exact absurd rfl hne
  | cons a rest =>
    have ha : a ≤ n + 1 := hl a (List.mem_cons_self _ _)
    have hfold : (a :: rest).foldl min (n + 1) = rest.foldl min a := by
      simp only [List.foldl_cons]
      rw [min_eq_right ha]
    refine ⟨?_, hlb, by rw [hfold]; rfl⟩
    rw [hfold]
    rcases foldl_min_mem rest a with h | h
    · rw [h]; exact List.mem_cons_self _ _
    · exact List.mem_cons_of_mem _ h

theorem decFirst_eq_decrement_first (v : Int) (l : List Int) :
    decFirst v l = decrement_first v l := by
  unfold decrement_first
  induction l with
  | nil => rfl
  | cons m rest ih =>
    by_cases h : m = v
    · simp [decFirst, firstSlot, h]
    · simp only [decFirst, firstSlot, h, if_false]
      cases hf : firstSlot v rest with
      | none =>
        rw [hf] at ih
        simp only [Option.map_none']
        rw [ih]
      | some i =>
        rw [hf] at ih
        simp only [Option.map_some', List.set_cons_succ, List.getD_cons_succ]
        rw [ih]

theorem incFirst_eq_set (n v : Int) (l : List Int) :
    incFirst n v l =
      match firstSlot v l with
      | some j => l.set j (min n (l.getD j 0 + 1))
      | none => l := by
  induction l with
  | nil => rfl
  | cons m rest ih =>
    by_cases h : m = v
    · simp [incFirst, firstSlot, h]
    · simp only [incFirst, firstSlot, h, if_false]
      cases hf : firstSlot v rest with
      | none =>
        rw [hf] at ih
        simp only [Option.map_none']
        rw [ih]
      | some i =>
        rw [hf] at ih
        simp only [Option.map_some', List.set_cons_succ, List.getD_cons_succ]
        rw [ih]

theorem apply_trigger_magnitudes (n : Int) (s : State) :
    (apply_trigger n s).magnitudes =
      incFirst n (s.magnitudes.foldl min (n + 1))
        (decFirst (s.magnitudes.foldl max (-1)) s.magnitudes) := rfl

/-- When the maximum exceeds the minimum by at least 2, the decrement neither
removes nor creates a slot holding the minimum. -/
theorem firstSlot_decFirst (mx mn : Int) (l : List Int) (h0 : 0 ≤ mn) (h : mn + 2 ≤ mx) :
    firstSlot mn (decFirst mx l) = firstSlot mn l := by
  induction l with
  | nil => rfl
  | cons m rest ih =>
    by_cases hm : m = mx
    · subst hm
      have h1 : ¬ (max 0 (m - 1) = mn) := by omega
      have h2 : ¬ (m = mn) := by omega
      simp [decFirst, firstSlot, h1, h2]
    · by_cases hmn : m = mn
      · subst hmn
        simp [decFirst, firstSlot, hm]
      · simp [decFirst, firstSlot, hm, hmn, ih]

theorem sum_decFirst (mx : Int) (l : List Int) (h : mx ∈ l) :
    (decFirst mx l).sum = l.sum - mx + max 0 (mx - 1) := by
  induction l with
  | nil => exact absurd h (List.not_mem_nil _)
  | cons m rest ih =>
    by_cases hm : m = mx
    · subst hm
      simp only [decFirst, if_true, List.sum_cons]
      omega
    · have hr : mx ∈ rest := by
        rcases List.mem_cons.mp h with h' | h'
        · exact absurd h'.symm hm
        · exact h'
      simp only [decFirst, hm, if_false, List.sum_cons, ih hr]
      omega

theorem sum_incFirst (n mn : Int) (l : List Int) (h : mn ∈ l) :
    (incFirst n mn l).sum = l.sum - mn + min n (mn + 1) := by
  induction l with
  | nil => exact absurd h (List.not_mem_nil _)
  | cons m rest ih =>
    by_cases hm : m = mn
    · subst hm
      simp only [incFirst, if_true, List.sum_cons]
      omega
    · have hr : mn ∈ rest := by
        rcases List.mem_cons.mp h with h' | h'
        · exact absurd h'.symm hm
        · exact h'
      simp only [incFirst, hm, if_false, List.sum_cons, ih hr]
      omega

theorem mem_decFirst_of_ne (mx x : Int) (l : List Int) (h : x ∈ l) (hx : x ≠ mx) :
    x ∈ decFirst mx l := by
  induction l with
  | nil => exact absurd h (List.not_mem_nil _)
  | cons m rest ih =>
    by_cases hm : m = mx
    · simp only [decFirst, hm, if_true]
      rcases List.mem_cons.mp h with h' | h'
      · exact absurd (h'.trans hm) hx
      · exact List.mem_cons_of_mem _ h'
    · simp only [decFirst, hm, if_false]
      rcases List.mem_cons.mp h with h' | h'
      · rw [h']; exact List.mem_cons_self _ _
      · exact List.mem_cons_of_mem _ (ih h')

theorem sum_decFirst_ge (mx : Int) (l : List Int) : l.sum - 1 ≤ (decFirst mx l).sum := by
  induction l with
  | nil => simp [decFirst]
  | cons m rest ih =>
    by_cases hm : m = mx
    · simp only [decFirst, hm, if_true, List.sum_cons]
      omega
    · simp only [decFirst, hm, if_false, List.sum_cons]
      omega

theorem sum_incFirst_ge (n mn : Int) (l : List Int) (hl : ∀ x ∈ l, x ≤ n) :
    l.sum ≤ (incFirst n mn l).sum := by
  induction l with
  | nil => simp [incFirst]
  | cons m rest ih =>
    have hm' : m ≤ n := hl m (List.mem_cons_self _ _)
    have hr := ih (fun x hx => hl x (List.mem_cons_of_mem _ hx))
    by_cases hm : m = mn
    · simp only [incFirst, hm, if_true, List.sum_cons]
      omega
    · simp only [incFirst, hm, if_false, List.sum_cons]
      omega

theorem le_sum_of_mem (l : List Int) (hl : ∀ x ∈ l, 0 ≤ x) (y : Int) (hy : y ∈ l) :
    y ≤ l.sum := by
  induction l with
  | nil => exact absurd hy (List.not_mem_nil _)
  | cons m rest ih =>
    have hm : 0 ≤ m := hl m (List.mem_cons_self _ _)
    have hrest : ∀ x ∈ rest, 0 ≤ x := fun x hx => hl x (List.mem_cons_of_mem _ hx)
    have hsum : 0 ≤ rest.sum := List.sum_nonneg hrest
    simp only [List.sum_cons]
    rcases List.mem_cons.mp hy with h | h
    · omega
    · have := ih hrest h
      omega

theorem exists_pos_of_sum_pos (l : List Int) (h : 1 ≤ l.sum) : ∃ x ∈ l, 1 ≤ x := by
  induction l with
  | nil => simp at h
  | cons m rest ih =>
    simp only [List.sum_cons] at h
    by_cases hm : 1 ≤ m
    · exact ⟨m, List.mem_cons_self _ _, hm⟩
    · obtain ⟨x, hx, hx1⟩ := ih (by omega)
      exact ⟨x, List.mem_cons_of_mem _ hx, hx1⟩

/-- C13, as the claim states it, fails: on `[2, 1]` with `n = 2` the first slot
holding the pre-trigger minimum is slot 1, which would give `[1, 2]`;
`apply_trigger` increments slot 0, which holds the minimum value after the
decrement, and returns `[2, 1]`. -/
theorem trigger_slot_chosen_after_decrement :
    (apply_trigger 2 (State.mk [2, 1] 0 3 6 0 2)).magnitudes = [2, 1] ∧
    trigger_pre_chosen 2 [2, 1] = [1, 2] ∧
    (apply_trigger 2 (State.mk [2, 1] 0 3 6 0 2)).magnitudes ≠ trigger_pre_chosen 2 [2, 1] := by
  decide

/-- C13, amended: on a non-empty magnitude array with entries in `[0, n]`,
`apply_trigger` computes the maximum and the minimum from the pre-trigger
array, and after the decrement of the first maximum slot it increments by 1
(capped at `n`) the first slot whose value then equals the pre-trigger minimum;
when the maximum exceeds the minimum by at least 2 that slot is the first slot
holding the minimum in the pre-trigger array. -/
theorem trigger_increments_after_decrement (n : Int) (s : State)
    (hl : ∀ x ∈ s.magnitudes, 0 ≤ x ∧ x ≤ n) (hne : s.magnitudes ≠ []) :
    ∃ mx mn : Int,
      (mx ∈ s.magnitudes ∧ ∀ x ∈ s.magnitudes, x ≤ mx) ∧
      (mn ∈ s.magnitudes ∧ ∀ x ∈ s.magnitudes, mn ≤ x) ∧
      s.magnitudes.foldl max (-1) = mx ∧ s.magnitudes.foldl min (n + 1) = mn ∧
      (apply_trigger n s).magnitudes =
        (match firstSlot mn (decrement_first mx s.magnitudes) with
        | some j =>
          (decrement_first mx s.magnitudes).set j
            (min n ((decrement_first mx s.magnitudes).getD j 0 + 1))
        | none => decrement_first mx s.magnitudes) ∧
      (mn + 2 ≤ mx → (apply_trigger n s).magnitudes = trigger_pre_chosen n s.magnitudes) := by
  obtain ⟨hmx1, hmx2, hmx3⟩ :=
    max_val_spec s.magnitudes hne (fun x hx => by have := (hl x hx).1; omega)
  obtain ⟨hmn1, hmn2, hmn3⟩ :=
    min_val_spec n s.magnitudes hne (fun x hx => by have := (hl x hx).2; omega)
  refine ⟨_, _, ⟨hmx1, hmx2⟩, ⟨hmn1, hmn2⟩, rfl, rfl, ?_, ?_⟩
  · rw [apply_trigger_magnitudes, incFirst_eq_set, decFirst_eq_decrement_first]
  · intro hgap
    have h0 : 0 ≤ s.magnitudes.foldl min (n + 1) := (hl _ hmn1).1
    unfold trigger_pre_chosen
    rw [hmx3, hmn3]
    simp only
    rw [apply_trigger_magnitudes, incFirst_eq_set, firstSlot_decFirst _ _ _ h0 hgap,
      decFirst_eq_decrement_first]

theorem trigger_increments_after_decrement_witness :
    ∃ mx mn : Int,
      (mx ∈ [3, 1, 2] ∧ ∀ x ∈ [3, 1, 2], x ≤ mx) ∧
      (mn ∈ [3, 1, 2] ∧ ∀ x ∈ [3, 1, 2], mn ≤ x) ∧
      [3, 1, 2].foldl max (-1) = mx ∧ [3, 1, 2].foldl min (3 + 1) = mn ∧
      (apply_trigger 3 (State.mk [3, 1, 2] 0 0 0 0 3)).magnitudes =
        (match firstSlot mn (decrement_first mx [3, 1, 2]) with
        | some j =>
          (decrement_first mx [3, 1, 2]).set j
            (min 3 ((decrement_first mx [3, 1, 2]).getD j 0 + 1))
        | none => decrement_first mx [3, 1, 2]) ∧
      (mn + 2 ≤ mx →
        (apply_trigger 3 (State.mk [3, 1, 2] 0 0 0 0 3)).magnitudes =
          trigger_pre_chosen 3 [3, 1, 2]) :=
  trigger_increments_after_decrement 3 (State.mk [3, 1, 2] 0 0 0 0 3) (by decide) (by decide)

/-- C17: on a magnitude array (entries in `[0, n]`), `apply_trigger` equals two
sequential edits: the first slot equal to the pre-trigger maximum is
decremented by 1, floored at 0; then, scanning the array so mutated, the first
slot whose value equals the pre-trigger minimum is incremented by 1, capped at
`n`, and nothing is done in this second edit when no slot holds that value. -/
theorem apply_trigger_eq_two_edits (n : Int) (s : State)
    (hl : ∀ x ∈ s.magnitudes, 0 ≤ x ∧ x ≤ n) :
    apply_trigger n s = { s with magnitudes := trigger_two_edits n s.magnitudes } := by
  have hmag : (apply_trigger n s).magnitudes = trigger_two_edits n s.magnitudes := by
    by_cases hne : s.magnitudes = []
    · rw [apply_trigger_magnitudes, hne]
      rfl
    · obtain ⟨_, _, hmx3⟩ :=
        max_val_spec s.magnitudes hne (fun x hx => by have := (hl x hx).1; omega)
      obtain ⟨_, _, hmn3⟩ :=
        min_val_spec n s.magnitudes hne (fun x hx => by have := (hl x hx).2; omega)
      unfold trigger_two_edits
      rw [hmx3, hmn3]
      simp only
      rw [apply_trigger_magnitudes, incFirst_eq_set, decFirst_eq_decrement_first]
  rw [← hmag]
  rfl

theorem apply_trigger_eq_two_edits_witness :
    apply_trigger 2 (State.mk [1, 1] 0 3 6 0 2) =
      { State.mk [1, 1] 0 3 6 0 2 with magnitudes := trigger_two_edits 2 [1, 1] } ∧
    trigger_two_edits 2 [1, 1] = [0, 2] ∧ trigger_two_edits 1 [1] = [0] :=
  ⟨apply_trigger_eq_two_edits 2 (State.mk [1, 1] 0 3 6 0 2) (by decide), by decide, by decide⟩

/-- C18: for `n ≥ 2`, on an array of `n` magnitudes in `[0, n]` whose maximum is
at least 1, `apply_trigger` leaves the sum of the magnitudes unchanged when the
minimum is below `n` and lowers it by exactly 1 when every slot equals `n`. -/
theorem apply_trigger_sum (n : Int) (s : State) (hn : 2 ≤ n)
    (hlen : (s.magnitudes.length : Int) = n)
    (hl : ∀ x ∈ s.magnitudes, 0 ≤ x ∧ x ≤ n) (hmax : ∃ x ∈ s.magnitudes, 1 ≤ x) :
    ((∃ x ∈ s.magnitudes, x < n) →
      (apply_trigger n s).magnitudes.sum = s.magnitudes.sum) ∧
    ((∀ x ∈ s.magnitudes, x = n) →
      (apply_trigger n s).magnitudes.sum = s.magnitudes.sum - 1) := by
  have hne : s.magnitudes ≠ [] := by
    obtain ⟨x, hx, _⟩ := hmax
    exact List.ne_nil_of_mem hx
  obtain ⟨hmx1, hmx2, _⟩ :=
    max_val_spec s.magnitudes hne (fun x hx => by have := (hl x hx).1; omega)
  obtain ⟨hmn1, hmn2, _⟩ :=
    min_val_spec n s.magnitudes hne (fun x hx => by have := (hl x hx).2; omega)
  generalize hmxd : s.magnitudes.foldl max (-1) = mx at hmx1 hmx2
  generalize hmnd : s.magnitudes.foldl min (n + 1) = mn at hmn1 hmn2
  have hmx_pos : 1 ≤ mx := by
    obtain ⟨x, hx, hx1⟩ := hmax
    have := hmx2 x hx
    omega
  have hmn_le : mn ≤ mx := hmx2 mn hmn1
  have hdec : (decFirst mx s.magnitudes).sum = s.magnitudes.sum - 1 := by
    rw [sum_decFirst mx _ hmx1]
    omega
  have hmem : mn ∈ decFirst mx s.magnitudes := by
    by_cases heq : mn = mx
    · cases hm : s.magnitudes with
      | nil => exact absurd hm hne
      | cons a rest =>
        cases rest with
        | nil =>
          rw [hm] at hlen
          simp only [List.length_cons, List.length_nil, Nat.cast_add, Nat.cast_zero,
            Nat.cast_one] at hlen
          omega
        | cons b rest' =>
          rw [hm] at hmx2 hmn2
          have ha1 := hmx2 a (List.mem_cons_self _ _)
          have ha2 := hmn2 a (List.mem_cons_self _ _)
          have hb1 := hmx2 b (List.mem_cons_of_mem _ (List.mem_cons_self _ _))
          have hb2 := hmn2 b (List.mem_cons_of_mem _ (List.mem_cons_self _ _))
          have ha : a = mx := by omega
          have hb : b = mn := by omega
          simp only [decFirst, ha, if_true]
          rw [hb]
          exact List.mem_cons_of_mem _ (List.mem_cons_self _ _)
    · exact mem_decFirst_of_ne mx mn _ hmn1 heq
  have hsum : (apply_trigger n s).magnitudes.sum =
      s.magnitudes.sum - 1 - mn + min n (mn + 1) := by
    rw [apply_trigger_magnitudes, hmxd, hmnd, sum_incFirst n mn _ hmem, hdec]
  refine ⟨?_, ?_⟩
  · rintro ⟨x, hx, hxn⟩
    have := hmn2 x hx
    rw [hsum]
    omega
  · intro hall
    have := hall mn hmn1
    rw [hsum]
    omega

theorem apply_trigger_sum_witness :
    ((∃ x ∈ [2, 0], x < (2 : Int)) →
      (apply_trigger 2 (State.mk [2, 0] 0 3 6 0 2)).magnitudes.sum = ([2, 0] : List Int).sum) ∧
    ((∀ x ∈ [2, 0], x = (2 : Int)) →
      (apply_trigger 2 (State.mk [2, 0] 0 3 6 0 2)).magnitudes.sum =
        ([2, 0] : List Int).sum - 1) :=
  apply_trigger_sum 2 (State.mk [2, 0] 0 3 6 0 2) (by decide) (by decide) (by decide)
    (by decide)

/-! ## The injection counter -/

theorem apply_periodic_effects_injection_cycle (n : Int) (u : State) :
    (apply_periodic_effects n u).injection_cycle =
      if 0 < u.total_moves ∧ u.total_moves.tmod 131 = 0 then u.injection_cycle + 1
      else u.injection_cycle := by
  unfold apply_periodic_effects State.apply_flip
  dsimp only
  split_ifs <;> rfl

theorem post_move_injection_cycle {n : Int} {s s' : State} (h : post_move n s s') :
    s'.injection_cycle = s.injection_cycle := by
  rcases h with ⟨b, hb, rfl⟩ | ⟨_, b, hb, rfl⟩
  · exact (bump_fields hb).2.2.2.1
  · exact (bump_fields hb).2.2.2.1

theorem next_state_injection_cycle {n : Int} {s t : State} {nexts : List State}
    (h : generate_next_states n s = some nexts) (ht : t ∈ nexts) (h0 : 0 ≤ s.total_moves)
    (hic : s.injection_cycle = s.total_moves / 131) :
    0 ≤ t.total_moves ∧ t.injection_cycle = t.total_moves / 131 := by
  obtain ⟨s', hpm, hmem⟩ := mem_generate_next_states h ht
  obtain ⟨_, p, _, rfl⟩ := mem_generate_movements hmem
  obtain ⟨_, f2, _, _, _⟩ := post_move_fields hpm
  have hic' := post_move_injection_cycle hpm
  have htm := (moved_state_fields n s' p).1
  have hmod : (s.total_moves + 1).tmod 131 = (s.total_moves + 1) % 131 :=
    Int.tmod_eq_emod (by omega) (by decide)
  refine ⟨by omega, ?_⟩
  rw [htm, f2]
  unfold moved_state
  rw [apply_periodic_effects_injection_cycle]
  simp only [f2, hic', hic, hmod]
  split_ifs with hc
  · omega
  · have : ¬ ((s.total_moves + 1) % 131 = 0) := fun e => hc ⟨by omega, e⟩
    omega

theorem reachable_injection_cycle {n : Int} {c : Search} (hr : Reachable n c) :
    ∀ s ∈ c.stack, 0 ≤ s.total_moves ∧ s.injection_cycle = s.total_moves / 131 := by
  apply reachable_stack_inv
    (fun s => 0 ≤ s.total_moves ∧ s.injection_cycle = s.total_moves / 131) _ _ hr
  · simp [State.initial]
  · intro s nexts hs hgen t ht
    exact next_state_injection_cycle hgen ht hs.1 hs.2

/-- C19: every state a run of `compute_L` generates from the initial state has
`injection_cycle = floor(total_moves / 131)` (counters modelled without
overflow); so two generated states with the same structural key have
`total_moves` values that differ by at most 130. -/
theorem injection_cycle_tracks_total_moves (n : Int) (c : Search) (hr : Reachable n c) :
    (∀ s ∈ c.stack, 0 ≤ s.total_moves ∧ s.injection_cycle = s.total_moves / 131) ∧
    (∀ s ∈ c.stack, ∀ nexts, generate_next_states n s = some nexts →
      ∀ t ∈ nexts, 0 ≤ t.total_moves ∧ t.injection_cycle = t.total_moves / 131) ∧
    (∀ c', Reachable n c' → ∀ a ∈ c.stack, ∀ b ∈ c'.stack, keyEquiv a b = true →
      a.total_moves - b.total_moves ≤ 130 ∧ b.total_moves - a.total_moves ≤ 130) := by
  refine ⟨reachable_injection_cycle hr, ?_, ?_⟩
  · intro s hs nexts hgen t ht
    obtain ⟨h0, hic⟩ := reachable_injection_cycle hr s hs
    exact next_state_injection_cycle hgen ht h0 hic
  · intro c' hr' a ha b hb hk
    obtain ⟨ha0, haic⟩ := reachable_injection_cycle hr a ha
    obtain ⟨hb0, hbic⟩ := reachable_injection_cycle hr' b hb
    have hkey := (keyEquiv_iff a b).mp hk
    simp only [State.key, Prod.mk.injEq] at hkey
    have hic : a.injection_cycle = b.injection_cycle := hkey.2.2.2
    rw [haic, hbic] at hic
    omega

theorem injection_cycle_tracks_total_moves_witness :
    (∀ s ∈ run_two_206.stack, 0 ≤ s.total_moves ∧ s.injection_cycle = s.total_moves / 131) ∧
    (∀ s ∈ run_two_206.stack, ∀ nexts, generate_next_states 2 s = some nexts →
      ∀ t ∈ nexts, 0 ≤ t.total_moves ∧ t.injection_cycle = t.total_moves / 131) ∧
    (∀ c', Reachable 2 c' → ∀ a ∈ run_two_206.stack, ∀ b ∈ c'.stack, keyEquiv a b = true →
      a.total_moves - b.total_moves ≤ 130 ∧ b.total_moves - a.total_moves ≤ 130) :=
  injection_cycle_tracks_total_moves 2 run_two_206
    (iterate_loop_reachable 206 Reachable.start run_two_206_eval)

/-! ## Goal states and the flip -/

theorem goalLoop_false_of_mem (n : Int) (l : List Int) (x : Int) (hx : x ∈ l) (hlt : x < n) :
    goalLoop n l = false := by
  induction l with
  | nil => exact absurd hx (List.not_mem_nil _)
  | cons m rest ih =>
    unfold goalLoop
    by_cases hm : m < n
    · simp [hm]
    · simp only [hm, if_false]
      rcases List.mem_cons.mp hx with h | h
      · exact absurd (h ▸ hlt) hm
      · exact ih h

theorem bump_has_large {n k : Int} {s b : State} (hb : bump n s k = some b) :
    min n (s.magnitudes.getD s.current_pos.toNat 0 + k) ∈ b.magnitudes := by
  unfold bump at hb
  split at hb
  · rename_i hpos
    simp only [Option.some.injEq] at hb
    subst hb
    exact List.mem_set _ _ (by omega) _
  · exact absurd hb (by simp)

theorem bump_getD_nonneg {n k : Int} {s b : State} (hs : s.bounded n)
    (hb : bump n s k = some b) : 0 ≤ s.magnitudes.getD s.current_pos.toNat 0 := by
  obtain ⟨_, _, _, _, _, h0, h1⟩ := bump_fields hb
  have hlt : s.current_pos.toNat < s.magnitudes.length := by omega
  rw [List.getD_eq_getElem _ _ hlt]
  exact (hs.2.2 _ (List.getElem_mem hlt)).1

/-- After either move some slot holds at least 1. -/
theorem post_move_has_pos {n : Int} {s s' : State} (hn : 2 ≤ n) (hs : s.bounded n)
    (h : post_move n s s') : ∃ y ∈ s'.magnitudes, 1 ≤ y := by
  rcases h with ⟨b, hb, rfl⟩ | ⟨_, b, hb, rfl⟩
  · have hmem := bump_has_large hb
    have h0 := bump_getD_nonneg hs hb
    exact ⟨_, hmem, by omega⟩
  · have hmem := bump_has_large hb
    have h0 := bump_getD_nonneg hs hb
    have hbb : b.bounded n := bump_bounded (by omega) (by decide) hs hb
    have hsum : 2 ≤ b.magnitudes.sum :=
      le_trans (by omega) (le_sum_of_mem _ (fun x hx => (hbb.2.2 x hx).1) _ hmem)
    have hdec := sum_decFirst_ge (b.magnitudes.foldl max (-1)) b.magnitudes
    have hinc := sum_incFirst_ge n (b.magnitudes.foldl min (n + 1))
      (decFirst (b.magnitudes.foldl max (-1)) b.magnitudes)
      (fun x hx => (decFirst_bound n _ _ hbb.2.2 x hx).2)
    have htrig : 1 ≤ (apply_trigger n b).magnitudes.sum := by
      rw [apply_trigger_magnitudes]
      omega
    exact exists_pos_of_sum_pos _ htrig

theorem apply_periodic_effects_flip_only (n : Int) (u : State)
    (hflip : u.total_moves.tmod (min 100 (4 + u.total_moves.tdiv 50000)) = 1)
    (hinj : u.total_moves.tmod 131 ≠ 0) : apply_periodic_effects n u = u.apply_flip := by
  have hpf : periodic_flip u = u.apply_flip := by
    unfold periodic_flip
    dsimp only
    rw [flip_period_eq_min, if_pos hflip]
  rw [apply_periodic_effects_eq, hpf]
  unfold periodic_injection
  have : ¬ (0 < u.apply_flip.total_moves ∧ u.apply_flip.total_moves.tmod 131 = 0) :=
    fun h => hinj h.2
  rw [if_neg this]

/-- C20: for `n ≥ 2` and a parent with `n` magnitudes in `[0, n]` and position in
`[0, n)`, `generate_next_states` returns its successors, and no successor whose
`total_moves = t` has `t mod min(100, 4 + t div 50000) = 1` and
`t mod 131 ≠ 0` is a goal state (with the operators of the code and, for
`t ≥ 0`, with the mathematical ones). -/
theorem flip_only_successor_not_goal (n : Int) (s : State) (hn : 2 ≤ n) (hs : s.bounded n)
    (h0 : 0 ≤ s.current_pos) (h1 : s.current_pos < n) :
    ∃ nexts, generate_next_states n s = some nexts ∧
      ∀ t ∈ nexts,
        (t.total_moves.tmod (min 100 (4 + t.total_moves.tdiv 50000)) = 1 →
          t.total_moves.tmod 131 ≠ 0 → t.is_goal = false) ∧
        (0 ≤ t.total_moves → t.total_moves % min 100 (4 + t.total_moves / 50000) = 1 →
          t.total_moves % 131 ≠ 0 → t.is_goal = false) := by
  obtain ⟨nexts, hgen⟩ := @generate_next_states_isSome n s h0 (by have := hs.2.1; omega)
  refine ⟨nexts, hgen, ?_⟩
  intro t ht
  have hcode : t.total_moves.tmod (min 100 (4 + t.total_moves.tdiv 50000)) = 1 →
      t.total_moves.tmod 131 ≠ 0 → t.is_goal = false := by
    intro hflip hinj
    obtain ⟨s', hpm, hmem⟩ := mem_generate_next_states hgen ht
    obtain ⟨_, p, _, rfl⟩ := mem_generate_movements hmem
    obtain ⟨y, hy, hy1⟩ := post_move_has_pos hn hs hpm
    have hn' : s'.n = n := (post_move_fields hpm).2.2.1.trans hs.1
    have htm := (moved_state_fields n s' p).1
    rw [htm] at hflip hinj
    have heq : moved_state n s' p =
        State.apply_flip { s' with current_pos := p, total_moves := s'.total_moves + 1 } :=
      apply_periodic_effects_flip_only n _ hflip hinj
    rw [heq]
    unfold State.is_goal State.apply_flip
    simp only [hn']
    exact goalLoop_false_of_mem n _ (n - y) (List.mem_map.mpr ⟨y, hy, rfl⟩) (by omega)
  refine ⟨hcode, ?_⟩
  intro hnn hflip hinj
  have hdiv : t.total_moves.tdiv 50000 = t.total_moves / 50000 :=
    Int.tdiv_eq_ediv hnn (by decide)
  have hper : 0 ≤ min 100 (4 + t.total_moves / 50000) := by
    have : 0 ≤ t.total_moves / 50000 := Int.ediv_nonneg hnn (by decide)
    omega
  apply hcode
  · rw [hdiv, Int.tmod_eq_emod hnn hper]
    exact hflip
  · rw [Int.tmod_eq_emod hnn (by decide)]
    exact hinj

theorem flip_only_successor_not_goal_witness :
    ∃ nexts, generate_next_states 2 (State.mk [0, 0] 0 4 4 0 2) = some nexts ∧
      ∀ t ∈ nexts,
        (t.total_moves.tmod (min 100 (4 + t.total_moves.tdiv 50000)) = 1 →
          t.total_moves.tmod 131 ≠ 0 → t.is_goal = false) ∧
        (0 ≤ t.total_moves → t.total_moves % min 100 (4 + t.total_moves / 50000) = 1 →
          t.total_moves % 131 ≠ 0 → t.is_goal = false) :=
  flip_only_successor_not_goal 2 (State.mk [0, 0] 0 4 4 0 2) (by decide)
    ⟨rfl, by decide, by decide⟩ (by decide) (by decide)

end MOO
